import Mathlib

/- Verification of maint/GenerateUcd.py: a shallow embedding of the script's
compression and encoding engine (width selection, two-stage table compression,
block-size search, record interning, boolean-property dedup, caseless
equivalence sets, digit-run extraction), with theorems settling the spec's
claims about it. Machine integers are modelled as Int/Nat; fallible code
returns Except. -/

namespace GenerateUcd

/-- Maximum Unicode codepoint bound, from the script's `MAX_UNICODE = 0x110000`. -/
def MAX_UNICODE : Nat := 0x110000

/-- Sentinel terminating each caseless set, from `NOTACHAR = 0xffffffff`. -/
def NOTACHAR : Nat := 0xffffffff

/-- The fixed ladder of C types tried by `get_type_size`: name, byte size, and
the inclusive value limits, in the order of the source's parallel `type_size`
and `limits` lists. -/
def type_size_ladder : List (String × Nat × Int × Int) :=
  [("uint8_t", 1, 0, 255), ("uint16_t", 2, 0, 65535),
   ("uint32_t", 4, 0, 4294967295), ("signed char", 1, -128, 127),
   ("int16_t", 2, -32768, 32767), ("int32_t", 4, -2147483648, 2147483647)]

/-- Minimum of a nonempty list given as head and tail (Python `min(table)`). -/
def list_min (x : Int) (xs : List Int) : Int := xs.foldl min x

/-- Maximum of a nonempty list given as head and tail (Python `max(table)`). -/
def list_max (x : Int) (xs : List Int) : Int := xs.foldl max x

/-- Test whether a ladder entry's limits contain both extremes, mirroring the
loop condition `minlimit <= minval and maxval <= maxlimit`. -/
def entry_fits (mn mx : Int) (e : String × Nat × Int × Int) : Bool :=
  decide (e.2.2.1 ≤ mn) && decide (mx ≤ e.2.2.2)

/-- The source's `get_type_size`: scan the ladder in order and return the first
type whose limits contain every value of the table. Python raises `ValueError`
on an empty table (from `min`) and `OverflowError` when no ladder type fits. -/
def get_type_size (table : List Int) : Except String (String × Nat) :=
  match table with
  | [] => .error "min() arg is an empty sequence"
  | x :: xs =>
    match type_size_ladder.find? (entry_fits (list_min x xs) (list_max x xs)) with
    | some e => .ok (e.1, e.2.1)
    | none => .error "Too large to fit into C types"

theorem list_min_le (x : Int) (xs : List Int) : list_min x xs ≤ x := by
  unfold list_min
  induction xs generalizing x with
  | nil => exact le_refl x
  | cons y ys ih => exact le_trans (ih (min x y)) (min_le_left x y)

theorem le_list_max (x : Int) (xs : List Int) : x ≤ list_max x xs := by
  unfold list_max
  induction xs generalizing x with
  | nil => exact le_refl x
  | cons y ys ih => exact le_trans (le_max_left x y) (ih (max x y))

/-- C8: for a non-empty table, `get_type_size` returns the first ladder type
whose limits contain every value, that type's byte size is minimal among all
ladder types whose limits contain the table's range, and when no ladder type
fits, the function fails with the range-exceeded error instead of returning. -/
theorem C8_width_selection (x : Int) (xs : List Int) :
    (∀ t s, get_type_size (x :: xs) = .ok (t, s) →
      ∃ pre e post, type_size_ladder = pre ++ e :: post ∧ e.1 = t ∧ e.2.1 = s ∧
        entry_fits (list_min x xs) (list_max x xs) e = true ∧
        (∀ e' ∈ pre, entry_fits (list_min x xs) (list_max x xs) e' = false) ∧
        (∀ e' ∈ type_size_ladder,
          entry_fits (list_min x xs) (list_max x xs) e' = true → s ≤ e'.2.1)) ∧
    ((∀ e ∈ type_size_ladder, entry_fits (list_min x xs) (list_max x xs) e = false) →
      get_type_size (x :: xs) = .error "Too large to fit into C types") := by
  have hmm : list_min x xs ≤ list_max x xs :=
    le_trans (list_min_le x xs) (le_list_max x xs)
  constructor
  · intro t s h
    simp only [get_type_size] at h
    set mn := list_min x xs with hmn
    set mx := list_max x xs with hmx
    rcases hfind : type_size_ladder.find? (entry_fits mn mx) with _ | e
    · rw [hfind] at h; simp at h
    · rw [hfind] at h
      have hts : e.1 = t ∧ e.2.1 = s := by
        simp only [Except.ok.injEq, Prod.mk.injEq] at h
        exact ⟨h.1, h.2⟩
      -- discover the position of e in the concrete six-entry ladder
      unfold type_size_ladder at hfind
      simp only [List.find?] at hfind
      -- case split on the six boolean tests in order
      rcases h1 : entry_fits mn mx ("uint8_t", 1, 0, 255) with _ | _ <;> rw [h1] at hfind
      case true =>
        simp only [Option.some.injEq] at hfind
        subst hfind
        obtain ⟨rfl, rfl⟩ := hts
        refine ⟨[], _, _, rfl, rfl, rfl, h1, ?_, ?_⟩
        · intro e' he'; cases he'
        · intro e' he' hfe'
          simp only [type_size_ladder, List.mem_cons, List.mem_singleton] at he'
          rcases he' with rfl | rfl | rfl | rfl | rfl | rfl | h0 <;>
            first | decide | cases h0
      case false =>
      rcases h2 : entry_fits mn mx ("uint16_t", 2, 0, 65535) with _ | _ <;> rw [h2] at hfind
      case true =>
        simp only [Option.some.injEq] at hfind
        subst hfind
        obtain ⟨rfl, rfl⟩ := hts
        refine ⟨[("uint8_t", 1, 0, 255)], _, _, rfl, rfl, rfl, h2, ?_, ?_⟩
        · intro e' he'; simp only [List.mem_singleton] at he'; rw [he']; exact h1
        · intro e' he' hfe'
          simp only [type_size_ladder, List.mem_cons, List.mem_singleton] at he'
          rcases he' with rfl | rfl | rfl | rfl | rfl | rfl | h0
          case inr.inr.inr.inr.inr.inr => cases h0
          all_goals
            simp only [entry_fits, Bool.and_eq_true, decide_eq_true_eq,
              Bool.and_eq_false_iff, decide_eq_false_iff_not, not_le] at h1 h2 hfe' ⊢
          all_goals omega
      case false =>
      rcases h3 : entry_fits mn mx ("uint32_t", 4, 0, 4294967295) with _ | _ <;> rw [h3] at hfind
      case true =>
        simp only [Option.some.injEq] at hfind
        subst hfind
        obtain ⟨rfl, rfl⟩ := hts
        refine ⟨[("uint8_t", 1, 0, 255), ("uint16_t", 2, 0, 65535)], _, _, rfl,
          rfl, rfl, h3, ?_, ?_⟩
        · intro e' he'
          simp only [List.mem_cons, List.mem_singleton] at he'
          rcases he' with rfl | rfl | h0
          · exact h1
          · exact h2
          · cases h0
        · intro e' he' hfe'
          simp only [type_size_ladder, List.mem_cons, List.mem_singleton] at he'
          rcases he' with rfl | rfl | rfl | rfl | rfl | rfl | h0
          case inr.inr.inr.inr.inr.inr => cases h0
          all_goals
            simp only [entry_fits, Bool.and_eq_true, decide_eq_true_eq,
              Bool.and_eq_false_iff, decide_eq_false_iff_not, not_le] at h1 h2 h3 hfe' ⊢
          all_goals omega
      case false =>
      rcases h4 : entry_fits mn mx ("signed char", 1, -128, 127) with _ | _ <;> rw [h4] at hfind
      case true =>
        simp only [Option.some.injEq] at hfind
        subst hfind
        obtain ⟨rfl, rfl⟩ := hts
        refine ⟨[("uint8_t", 1, 0, 255), ("uint16_t", 2, 0, 65535),
          ("uint32_t", 4, 0, 4294967295)], _, _, rfl, rfl, rfl, h4, ?_, ?_⟩
        · intro e' he'
          simp only [List.mem_cons, List.mem_singleton] at he'
          rcases he' with rfl | rfl | rfl | h0
          · exact h1
          · exact h2
          · exact h3
          · cases h0
        · intro e' he' hfe'
          simp only [type_size_ladder, List.mem_cons, List.mem_singleton] at he'
          rcases he' with rfl | rfl | rfl | rfl | rfl | rfl | h0
          case inr.inr.inr.inr.inr.inr => cases h0
          all_goals
            simp only [entry_fits, Bool.and_eq_true, decide_eq_true_eq,
              Bool.and_eq_false_iff, decide_eq_false_iff_not, not_le] at h1 hfe' ⊢
          all_goals omega
      case false =>
      rcases h5 : entry_fits mn mx ("int16_t", 2, -32768, 32767) with _ | _ <;> rw [h5] at hfind
      case true =>
        simp only [Option.some.injEq] at hfind
        subst hfind
        obtain ⟨rfl, rfl⟩ := hts
        refine ⟨[("uint8_t", 1, 0, 255), ("uint16_t", 2, 0, 65535),
          ("uint32_t", 4, 0, 4294967295), ("signed char", 1, -128, 127)], _, _, rfl,
          rfl, rfl, h5, ?_, ?_⟩
        · intro e' he'
          simp only [List.mem_cons, List.mem_singleton] at he'
          rcases he' with rfl | rfl | rfl | rfl | h0
          · exact h1
          · exact h2
          · exact h3
          · exact h4
          · cases h0
        · intro e' he' hfe'
          simp only [type_size_ladder, List.mem_cons, List.mem_singleton] at he'
          rcases he' with rfl | rfl | rfl | rfl | rfl | rfl | h0
          case inr.inr.inr.inr.inr.inr => cases h0
          all_goals
            simp only [entry_fits, Bool.and_eq_true, decide_eq_true_eq,
              Bool.and_eq_false_iff, decide_eq_false_iff_not, not_le] at h1 h2 h4 hfe' ⊢
          all_goals omega
      case false =>
      rcases h6 : entry_fits mn mx ("int32_t", 4, -2147483648, 2147483647) with _ | _ <;>
        rw [h6] at hfind
      case true =>
        simp only [Option.some.injEq] at hfind
        subst hfind
        obtain ⟨rfl, rfl⟩ := hts
        refine ⟨[("uint8_t", 1, 0, 255), ("uint16_t", 2, 0, 65535),
          ("uint32_t", 4, 0, 4294967295), ("signed char", 1, -128, 127),
          ("int16_t", 2, -32768, 32767)], _, _, rfl, rfl, rfl, h6, ?_, ?_⟩
        · intro e' he'
          simp only [List.mem_cons, List.mem_singleton] at he'
          rcases he' with rfl | rfl | rfl | rfl | rfl | h0
          · exact h1
          · exact h2
          · exact h3
          · exact h4
          · exact h5
          · cases h0
        · intro e' he' hfe'
          simp only [type_size_ladder, List.mem_cons, List.mem_singleton] at he'
          rcases he' with rfl | rfl | rfl | rfl | rfl | rfl | h0
          case inr.inr.inr.inr.inr.inr => cases h0
          all_goals
            simp only [entry_fits, Bool.and_eq_true, decide_eq_true_eq,
              Bool.and_eq_false_iff, decide_eq_false_iff_not, not_le] at h1 h2 h3 h4 h5 hfe' ⊢
          all_goals omega
      case false => simp at hfind
  · intro hall
    simp only [get_type_size]
    have : type_size_ladder.find? (entry_fits (list_min x xs) (list_max x xs)) = none := by
      rw [List.find?_eq_none]
      intro e he
      simp [hall e he]
    rw [this]

/-- Concrete use of C8: the table `[300, -5]` selects `int16_t`, size 2, and
every fitting ladder type has size at least 2. -/
theorem C8_width_selection_witness :
    get_type_size [(300 : Int), -5] = .ok ("int16_t", 2) ∧
    ∃ pre e post, type_size_ladder = pre ++ e :: post ∧ e.1 = "int16_t" ∧ e.2.1 = 2 ∧
      entry_fits (list_min 300 [-5]) (list_max 300 [-5]) e = true ∧
      (∀ e' ∈ pre, entry_fits (list_min 300 [-5]) (list_max 300 [-5]) e' = false) ∧
      (∀ e' ∈ type_size_ladder,
        entry_fits (list_min 300 [-5]) (list_max 300 [-5]) e' = true → 2 ≤ e'.2.1) :=
  ⟨by rfl, (C8_width_selection 300 [-5]).1 "int16_t" 2 (by rfl)⟩

/-- Split a list into the chunks `table[i:i+block_size]` visited by the loop
`for i in range(0, len(table), block_size)` in `compress_table`. -/
def chunksOf {α : Type} (bs : Nat) (l : List α) : List (List α) :=
  (List.range ((l.length + bs - 1) / bs)).map (fun i => (l.drop (i * bs)).take bs)

/-- Lookup in an insertion-ordered association list, modelling `dict.get`. -/
def dict_get {α : Type} [DecidableEq α] (d : List (α × Nat)) (k : α) : Option Nat :=
  match d with
  | [] => none
  | (k', v) :: rest => if k' = k then some v else dict_get rest k

/-- One iteration of the block loop of `compress_table`: look the block up in
the `blocks` dictionary; on a miss allocate it at `len(stage2) / block_size`. -/
def compress_step {α : Type} [DecidableEq α] (bs : Nat)
    (st : List (List α × Nat) × List Nat × List α) (block : List α) :
    List (List α × Nat) × List Nat × List α :=
  match dict_get st.1 block with
  | some start => (st.1, st.2.1 ++ [start], st.2.2)
  | none =>
    (st.1 ++ [(block, st.2.2.length / bs)], st.2.1 ++ [st.2.2.length / bs],
     st.2.2 ++ block)

/-- The source's `compress_table`: deduplicate fixed-size blocks of `table`,
returning the stage-1 block-index array and the concatenated unique blocks. -/
def compress_table {α : Type} [DecidableEq α] (table : List α) (block_size : Nat) :
    List Nat × List α :=
  ((chunksOf block_size table).foldl (compress_step block_size) ([], [], [])).2

theorem dict_get_append_of_some {α : Type} [DecidableEq α] {d : List (α × Nat)} {k : α}
    {v : Nat} (d' : List (α × Nat)) (h : dict_get d k = some v) :
    dict_get (d ++ d') k = some v := by
  induction d with
  | nil => simp [dict_get] at h
  | cons p rest ih =>
    obtain ⟨k', v'⟩ := p
    simp only [dict_get, List.cons_append] at h ⊢
    by_cases hk : k' = k
    · simpa [hk] using h
    · rw [if_neg hk] at h ⊢
      exact ih h

theorem dict_get_append_none {α : Type} [DecidableEq α] {d : List (α × Nat)} {k : α}
    (h : dict_get d k = none) (v : Nat) : dict_get (d ++ [(k, v)]) k = some v := by
  induction d with
  | nil => simp [dict_get]
  | cons p rest ih =>
    obtain ⟨k', v'⟩ := p
    simp only [dict_get, List.cons_append] at h ⊢
    by_cases hk : k' = k
    · simp [hk] at h
    · rw [if_neg hk] at h ⊢
      exact ih h

theorem dict_get_mem {α : Type} [DecidableEq α] {d : List (α × Nat)} {k : α} {v : Nat}
    (h : dict_get d k = some v) : (k, v) ∈ d := by
  induction d with
  | nil => simp [dict_get] at h
  | cons p rest ih =>
    obtain ⟨k', v'⟩ := p
    simp only [dict_get] at h
    by_cases hk : k' = k
    · rw [if_pos hk] at h
      obtain rfl := Option.some.inj h
      subst hk
      exact List.mem_cons_self _ _
    · rw [if_neg hk] at h
      exact List.mem_cons_of_mem _ (ih h)

theorem getD_append_left {α : Type} (l l' : List α) (d : α) {i : Nat} (h : i < l.length) :
    (l ++ l').getD i d = l.getD i d := by
  simp [List.getD_eq_getElem?_getD, List.getElem?_append_left h]

theorem getD_append_self {α : Type} (l : List α) (a d : α) :
    (l ++ [a]).getD l.length d = a := by
  simp [List.getD_eq_getElem?_getD, List.getElem?_append_right (le_refl l.length)]

/-- Invariant of the block-compression fold, relating the dictionary, the
stage-1 indices and the stage-2 array to the list of processed chunks. -/
def CompressInv {α : Type} [DecidableEq α] (bs : Nat) (cl : List (List α))
    (st : List (List α × Nat) × List Nat × List α) : Prop :=
  st.2.1.length = cl.length ∧
  st.2.2.length = st.1.length * bs ∧
  st.1.map Prod.snd = List.range st.1.length ∧
  (∀ p ∈ st.1, dict_get st.1 p.1 = some p.2) ∧
  (∀ p ∈ st.1, p.1.length = bs ∧ (p.2 + 1) * bs ≤ st.2.2.length ∧
    (st.2.2.drop (p.2 * bs)).take bs = p.1) ∧
  (∀ i, i < cl.length → dict_get st.1 (cl.getD i []) = some (st.2.1.getD i 0)) ∧
  st.1.length ≤ cl.length ∧
  (∀ i, i < cl.length → st.2.1.getD i 0 ≤ i)

theorem compress_fold_inv {α : Type} [DecidableEq α] {bs : Nat} (hbs : 0 < bs)
    (cl : List (List α)) (hcl : ∀ b ∈ cl, b.length = bs) :
    CompressInv bs cl (cl.foldl (compress_step bs) ([], [], [])) := by
  induction cl using List.reverseRecOn with
  | nil =>
    refine ⟨rfl, by simp, rfl, ?_, ?_, ?_, ?_, ?_⟩ <;> simp
  | append_singleton cl c ih =>
    have hcl' : ∀ b ∈ cl, b.length = bs := fun b hb => hcl b (List.mem_append_left _ hb)
    have hc : c.length = bs := hcl c (List.mem_append_right _ (List.mem_singleton_self c))
    obtain ⟨h1, h2, h3, h4, h5, h6, h7, h8⟩ := ih hcl'
    rw [List.foldl_append]
    set st := cl.foldl (compress_step bs) ([], [], []) with hst
    obtain ⟨bl, s1, s2⟩ := st
    simp only at h1 h2 h3 h4 h5 h6 h7 h8
    simp only [List.foldl_cons, List.foldl_nil]
    rcases hget : dict_get bl c with _ | v
    · -- miss: a new block is appended at index len(stage2)/bs = bl.length
      have hv : s2.length / bs = bl.length := by
        rw [h2]
        exact Nat.mul_div_cancel _ hbs
      simp only [compress_step, hget, hv]
      refine ⟨?_, ?_, ?_, ?_, ?_, ?_, ?_, ?_⟩ <;> dsimp only
      · simp [h1]
      · simp only [List.length_append, List.length_singleton]
        rw [h2, hc, Nat.succ_mul]
      · simp only [List.map_append, h3, List.length_append, List.map_cons,
          List.map_nil, List.length_singleton]
        rw [List.range_succ]
      · intro p hp
        rcases List.mem_append.mp hp with hp' | hp'
        · exact dict_get_append_of_some _ (h4 p hp')
        · obtain rfl := List.mem_singleton.mp hp'
          exact dict_get_append_none hget _
      · intro p hp
        rcases List.mem_append.mp hp with hp' | hp'
        · obtain ⟨ha, hb', hc'⟩ := h5 p hp'
          have hdrop : (s2 ++ c).drop (p.2 * bs) = s2.drop (p.2 * bs) ++ c :=
            List.drop_append_of_le_length
              (le_trans (Nat.le_add_right _ _) (by rw [← Nat.succ_mul]; exact hb'))
          have htake : ((s2.drop (p.2 * bs)) ++ c).take bs = (s2.drop (p.2 * bs)).take bs := by
            apply List.take_append_of_le_length
            rw [List.length_drop]
            have hsm := hb'
            rw [Nat.succ_mul] at hsm
            omega
          refine ⟨ha, ?_, ?_⟩
          · simp only [List.length_append]
            exact le_trans hb' (Nat.le_add_right _ _)
          · rw [hdrop, htake, hc']
        · obtain rfl := List.mem_singleton.mp hp'
          refine ⟨hc, ?_, ?_⟩
          · simp only [List.length_append, h2, hc]
            rw [Nat.succ_mul]
          · have hdrop : (s2 ++ c).drop (bl.length * bs) = c := by
              rw [← h2]
              simp
            rw [hdrop, ← hc, List.take_length]
      · intro i hi
        simp only [List.length_append, List.length_singleton] at hi
        rcases Nat.lt_succ_iff_lt_or_eq.mp hi with hi' | hi'
        · rw [getD_append_left cl [c] [] hi', getD_append_left s1 [bl.length] 0 (h1 ▸ hi')]
          exact dict_get_append_of_some _ (h6 i hi')
        · subst hi'
          rw [getD_append_self cl c []]
          have hgs : (s1 ++ [bl.length]).getD cl.length 0 = bl.length := by
            rw [← h1]
            exact getD_append_self s1 bl.length 0
          rw [hgs]
          exact dict_get_append_none hget _
      · simp only [List.length_append, List.length_singleton]
        omega
      · intro i hi
        simp only [List.length_append, List.length_singleton] at hi
        rcases Nat.lt_succ_iff_lt_or_eq.mp hi with hi' | hi'
        · rw [getD_append_left s1 [bl.length] 0 (h1 ▸ hi')]
          exact h8 i hi'
        · subst hi'
          have hgs : (s1 ++ [bl.length]).getD cl.length 0 = bl.length := by
            rw [← h1]
            exact getD_append_self s1 bl.length 0
          rw [hgs]
          exact h7
    · -- hit: reuse the stage-2 index of the identical block
      simp only [compress_step, hget]
      have hvlt : v < bl.length := by
        have hmem : (c, v) ∈ bl := dict_get_mem hget
        have hvmem : v ∈ bl.map Prod.snd := List.mem_map.mpr ⟨(c, v), hmem, rfl⟩
        rw [h3] at hvmem
        exact List.mem_range.mp hvmem
      refine ⟨?_, h2, h3, h4, h5, ?_, ?_, ?_⟩ <;> dsimp only
      · simp [h1]
      · intro i hi
        simp only [List.length_append, List.length_singleton] at hi
        rcases Nat.lt_succ_iff_lt_or_eq.mp hi with hi' | hi'
        · rw [getD_append_left cl [c] [] hi', getD_append_left s1 [v] 0 (h1 ▸ hi')]
          exact h6 i hi'
        · subst hi'
          rw [getD_append_self cl c []]
          have hgs : (s1 ++ [v]).getD cl.length 0 = v := by
            rw [← h1]
            exact getD_append_self s1 v 0
          rw [hgs]
          exact hget
      · simp only [List.length_append, List.length_singleton]
        omega
      · intro i hi
        simp only [List.length_append, List.length_singleton] at hi
        rcases Nat.lt_succ_iff_lt_or_eq.mp hi with hi' | hi'
        · rw [getD_append_left s1 [v] 0 (h1 ▸ hi')]
          exact h8 i hi'
        · subst hi'
          have hgs : (s1 ++ [v]).getD cl.length 0 = v := by
            rw [← h1]
            exact getD_append_self s1 v 0
          rw [hgs]
          exact le_trans (Nat.le_of_lt hvlt) h7

theorem chunksOf_length {α : Type} (bs : Nat) (hbs : 0 < bs) (l : List α)
    (hdvd : bs ∣ l.length) : (chunksOf bs l).length = l.length / bs := by
  obtain ⟨k, hk⟩ := hdvd
  simp only [chunksOf, List.length_map, List.length_range, hk]
  have h1 : bs * k + bs - 1 = bs - 1 + bs * k := by omega
  rw [h1, Nat.add_mul_div_left _ _ hbs, Nat.div_eq_of_lt (by omega),
    Nat.mul_div_cancel_left _ hbs]
  omega

theorem chunksOf_getD {α : Type} (bs : Nat) (l : List α) {i : Nat}
    (hi : i < (chunksOf bs l).length) :
    (chunksOf bs l).getD i [] = (l.drop (i * bs)).take bs := by
  simp only [chunksOf, List.length_map, List.length_range] at hi
  simp [chunksOf, List.getD_eq_getElem?_getD, List.getElem?_map, List.getElem?_range hi]

theorem chunksOf_mem_length {α : Type} {bs : Nat} (hbs : 0 < bs) {l : List α}
    (hdvd : bs ∣ l.length) {b : List α} (hb : b ∈ chunksOf bs l) : b.length = bs := by
  obtain ⟨k, hk⟩ := hdvd
  simp only [chunksOf, List.mem_map, List.mem_range] at hb
  obtain ⟨i, hi, rfl⟩ := hb
  have hcount : (l.length + bs - 1) / bs = k := by
    rw [hk]
    have h1 : bs * k + bs - 1 = bs - 1 + bs * k := by omega
    rw [h1, Nat.add_mul_div_left _ _ hbs, Nat.div_eq_of_lt (by omega)]
    omega
  rw [hcount] at hi
  simp only [List.length_take, List.length_drop, hk]
  have : i * bs + bs ≤ bs * k := by
    rw [← Nat.succ_mul, Nat.mul_comm bs k]
    exact Nat.mul_le_mul_right bs hi
  omega

/-- C10: for a table whose length is a multiple of the block size, stage 1 has
one entry per block of the input, stage 2 stays a multiple of the block size,
every stage-1 entry is an in-range stage-2 block index no larger than its own
position whose stage-2 block reproduces the input block, equal input blocks get
equal stage-1 entries, and distinct stage-2 blocks never coincide (so each
stage-1 entry is the index of the unique, first-appended copy of its block). -/
theorem C10_stage_table_invariant {α : Type} [DecidableEq α] (table : List α)
    (bs : Nat) (s1 : List Nat) (s2 : List α) (hbs : 0 < bs)
    (hdvd : bs ∣ table.length) (hcomp : compress_table table bs = (s1, s2)) :
    s1.length = table.length / bs ∧
    bs ∣ s2.length ∧
    (∀ i, i < s1.length →
      s1.getD i 0 ≤ i ∧
      (s1.getD i 0 + 1) * bs ≤ s2.length ∧
      (s2.drop (s1.getD i 0 * bs)).take bs = (table.drop (i * bs)).take bs) ∧
    (∀ i j, i < s1.length → j < s1.length →
      (table.drop (i * bs)).take bs = (table.drop (j * bs)).take bs →
      s1.getD i 0 = s1.getD j 0) ∧
    (∀ q1 q2, (q1 + 1) * bs ≤ s2.length → (q2 + 1) * bs ≤ s2.length →
      (s2.drop (q1 * bs)).take bs = (s2.drop (q2 * bs)).take bs → q1 = q2) := by
  have hinv := compress_fold_inv hbs (chunksOf bs table)
    (fun b hb => chunksOf_mem_length hbs hdvd hb)
  set st := (chunksOf bs table).foldl (compress_step bs) ([], [], []) with hst
  obtain ⟨bl, s1', s2'⟩ := st
  obtain ⟨h1, h2, h3, h4, h5, h6, h7, h8⟩ := hinv
  simp only at h1 h2 h3 h4 h5 h6 h7 h8
  have hpair : (s1, s2) = (s1', s2') := by
    rw [← hcomp]
    unfold compress_table
    rw [← hst]
  injection hpair with hA hB
  subst hA
  subst hB
  have hclen : (chunksOf bs table).length = table.length / bs :=
    chunksOf_length bs hbs table hdvd
  have hs1len : s1.length = table.length / bs := by rw [h1, hclen]
  refine ⟨hs1len, ⟨bl.length, by rw [h2, Nat.mul_comm]⟩, ?_, ?_, ?_⟩
  · intro i hi
    have hi' : i < (chunksOf bs table).length := by rw [hclen, ← hs1len]; exact hi
    have hd := h6 i hi'
    rw [chunksOf_getD bs table hi'] at hd
    obtain ⟨ha, hb', hc'⟩ := h5 _ (dict_get_mem hd)
    exact ⟨h8 i hi', hb', hc'⟩
  · intro i j hi hj heq
    have hi' : i < (chunksOf bs table).length := by rw [hclen, ← hs1len]; exact hi
    have hj' : j < (chunksOf bs table).length := by rw [hclen, ← hs1len]; exact hj
    have hdi := h6 i hi'
    have hdj := h6 j hj'
    rw [chunksOf_getD bs table hi'] at hdi
    rw [chunksOf_getD bs table hj'] at hdj
    rw [heq, hdj] at hdi
    exact (Option.some.inj hdi).symm
  · intro q1 q2 hq1 hq2 heq
    have hql1 : q1 < bl.length := by
      by_contra hcon
      push_neg at hcon
      rw [h2] at hq1
      have hmono : (bl.length + 1) * bs ≤ (q1 + 1) * bs :=
        Nat.mul_le_mul_right bs (by omega)
      have hle := le_trans hmono hq1
      rw [Nat.succ_mul] at hle
      omega
    have hql2 : q2 < bl.length := by
      by_contra hcon
      push_neg at hcon
      rw [h2] at hq2
      have hmono : (bl.length + 1) * bs ≤ (q2 + 1) * bs :=
        Nat.mul_le_mul_right bs (by omega)
      have hle := le_trans hmono hq2
      rw [Nat.succ_mul] at hle
      omega
    obtain ⟨p1, hp1, hpv1⟩ := List.mem_map.mp (h3 ▸ List.mem_range.mpr hql1)
    obtain ⟨p2, hp2, hpv2⟩ := List.mem_map.mp (h3 ▸ List.mem_range.mpr hql2)
    obtain ⟨ha1, hb1', hc1'⟩ := h5 p1 hp1
    obtain ⟨ha2, hb2', hc2'⟩ := h5 p2 hp2
    have hkeq : p1.1 = p2.1 := by
      rw [← hc1', ← hc2', hpv1, hpv2]
      exact heq
    have hd1 := h4 p1 hp1
    have hd2 := h4 p2 hp2
    rw [hkeq, hd2] at hd1
    have hveq := Option.some.inj hd1
    rw [← hpv1, ← hpv2, hveq]

/-- Concrete use of C10: compressing a six-element table with block size 2
produces stage 1 of length 3, a stage 2 of length a multiple of 2, in-range
backward-pointing entries, and equal blocks share a stage-1 entry. -/
theorem C10_stage_table_invariant_witness :
    0 < 2 ∧ 2 ∣ ([0, 1, 0, 1, 2, 3] : List Int).length ∧
    compress_table ([0, 1, 0, 1, 2, 3] : List Int) 2 = ([0, 0, 1], [0, 1, 2, 3]) ∧
    (([0, 0, 1] : List Nat).length = ([0, 1, 0, 1, 2, 3] : List Int).length / 2 ∧
    2 ∣ ([0, 1, 2, 3] : List Int).length ∧
    (∀ i, i < ([0, 0, 1] : List Nat).length →
      ([0, 0, 1] : List Nat).getD i 0 ≤ i ∧
      (([0, 0, 1] : List Nat).getD i 0 + 1) * 2 ≤ ([0, 1, 2, 3] : List Int).length ∧
      (([0, 1, 2, 3] : List Int).drop (([0, 0, 1] : List Nat).getD i 0 * 2)).take 2 =
        (([0, 1, 0, 1, 2, 3] : List Int).drop (i * 2)).take 2) ∧
    (∀ i j, i < ([0, 0, 1] : List Nat).length → j < ([0, 0, 1] : List Nat).length →
      (([0, 1, 0, 1, 2, 3] : List Int).drop (i * 2)).take 2 =
        (([0, 1, 0, 1, 2, 3] : List Int).drop (j * 2)).take 2 →
      ([0, 0, 1] : List Nat).getD i 0 = ([0, 0, 1] : List Nat).getD j 0) ∧
    (∀ q1 q2, (q1 + 1) * 2 ≤ ([0, 1, 2, 3] : List Int).length →
      (q2 + 1) * 2 ≤ ([0, 1, 2, 3] : List Int).length →
      (([0, 1, 2, 3] : List Int).drop (q1 * 2)).take 2 =
        (([0, 1, 2, 3] : List Int).drop (q2 * 2)).take 2 → q1 = q2)) :=
  ⟨by decide, by decide, by decide,
   C10_stage_table_invariant [0, 1, 0, 1, 2, 3] 2 [0, 0, 1] [0, 1, 2, 3]
     (by decide) (by decide) (by decide)⟩

/-- One iteration of the `combine_tables` loop: look the tuple up in the
insertion-ordered `records` dictionary, interning it with id `len(records)`
on a miss, and append the id to the per-codepoint index array. -/
def combine_step (st : List Nat × List (List Int × Nat)) (t : List Int) :
    List Nat × List (List Int × Nat) :=
  match dict_get st.2 t with
  | some i => (st.1 ++ [i], st.2)
  | none => (st.1 ++ [st.2.length], st.2 ++ [(t, st.2.length)])

/-- The source's `combine_tables` applied to the already-zipped rows: returns
the per-codepoint record-index array and the record dictionary. -/
def combine_tables_rows (rows : List (List Int)) : List Nat × List (List Int × Nat) :=
  rows.foldl combine_step ([], [])

/-- Python `zip(*tables)` as used by `combine_tables`: the per-codepoint
tuples, one for every index below the shortest table length. -/
def zip_tables (tables : List (List Int)) : List (List Int) :=
  match tables with
  | [] => []
  | t0 :: rest =>
    (List.range (rest.foldl (fun m u => min m u.length) t0.length)).map
      (fun i => (t0 :: rest).map (fun u => u.getD i 0))

/-- The source's `combine_tables` on the parallel property tables. -/
def combine_tables (tables : List (List Int)) : List Nat × List (List Int × Nat) :=
  combine_tables_rows (zip_tables tables)

/-- Insert a record into a list that is sorted by assigned id ascending. -/
def insert_by_id (p : List Int × Nat) : List (List Int × Nat) → List (List Int × Nat)
  | [] => [p]
  | q :: rest => if p.2 ≤ q.2 then p :: q :: rest else q :: insert_by_id p rest

/-- Sort the record dictionary items by assigned id ascending, modelling the
`records.sort(key = lambda x: x[1])` call in `write_records`. -/
def sort_by_id : List (List Int × Nat) → List (List Int × Nat)
  | [] => []
  | p :: rest => insert_by_id p (sort_by_id rest)

/-- The record tuples emitted by `write_records`, in emission order. -/
def write_records_rows (records : List (List Int × Nat)) : List (List Int) :=
  (sort_by_id records).map Prod.fst

/-- Invariant of the record-interning fold, relating the index array and the
record dictionary to the processed rows. -/
def CombineInv (rows : List (List Int)) (st : List Nat × List (List Int × Nat)) : Prop :=
  st.1.length = rows.length ∧
  st.2.map Prod.snd = List.range st.2.length ∧
  (∀ p ∈ st.2, dict_get st.2 p.1 = some p.2) ∧
  (∀ i, i < rows.length → dict_get st.2 (rows.getD i []) = some (st.1.getD i 0)) ∧
  (∀ p q, p ∈ st.2 → q ∈ st.2 → p.2 = q.2 → p.1 = q.1)

theorem combine_fold_inv (rows : List (List Int)) :
    CombineInv rows (rows.foldl combine_step ([], [])) := by
  induction rows using List.reverseRecOn with
  | nil => refine ⟨rfl, rfl, ?_, ?_, ?_⟩ <;> simp
  | append_singleton rows t ih =>
    obtain ⟨h1, h2, h3, h4, h5⟩ := ih
    rw [List.foldl_append]
    set st := rows.foldl combine_step ([], []) with hst
    obtain ⟨ix, rec⟩ := st
    simp only at h1 h2 h3 h4 h5
    simp only [List.foldl_cons, List.foldl_nil]
    have hval_lt : ∀ p ∈ rec, p.2 < rec.length := by
      intro p hp
      have hm : p.2 ∈ rec.map Prod.snd := List.mem_map.mpr ⟨p, hp, rfl⟩
      rw [h2] at hm
      exact List.mem_range.mp hm
    rcases hget : dict_get rec t with _ | v
    · -- miss: intern the new tuple with the next id
      simp only [combine_step, hget]
      refine ⟨?_, ?_, ?_, ?_, ?_⟩ <;> dsimp only
      · simp [h1]
      · simp only [List.map_append, h2, List.length_append, List.map_cons,
          List.map_nil, List.length_singleton]
        rw [List.range_succ]
      · intro p hp
        rcases List.mem_append.mp hp with hp' | hp'
        · exact dict_get_append_of_some _ (h3 p hp')
        · obtain rfl := List.mem_singleton.mp hp'
          exact dict_get_append_none hget _
      · intro i hi
        simp only [List.length_append, List.length_singleton] at hi
        rcases Nat.lt_succ_iff_lt_or_eq.mp hi with hi' | hi'
        · rw [getD_append_left rows [t] [] hi', getD_append_left ix [rec.length] 0 (h1 ▸ hi')]
          exact dict_get_append_of_some _ (h4 i hi')
        · subst hi'
          rw [getD_append_self rows t []]
          have hgs : (ix ++ [rec.length]).getD rows.length 0 = rec.length := by
            rw [← h1]
            exact getD_append_self ix rec.length 0
          rw [hgs]
          exact dict_get_append_none hget _
      · intro p q hp hq hpq
        rcases List.mem_append.mp hp with hp' | hp' <;>
          rcases List.mem_append.mp hq with hq' | hq'
        · exact h5 p q hp' hq' hpq
        · obtain rfl := List.mem_singleton.mp hq'
          have hlt' := hval_lt p hp'
          have hpq' : p.2 = rec.length := hpq
          exact ((by omega : False)).elim
        · obtain rfl := List.mem_singleton.mp hp'
          have hlt' := hval_lt q hq'
          have hpq' : rec.length = q.2 := hpq
          exact ((by omega : False)).elim
        · obtain rfl := List.mem_singleton.mp hp'
          obtain rfl := List.mem_singleton.mp hq'
          rfl
    · -- hit: reuse the existing id
      simp only [combine_step, hget]
      refine ⟨?_, h2, h3, ?_, h5⟩ <;> dsimp only
      · simp [h1]
      · intro i hi
        simp only [List.length_append, List.length_singleton] at hi
        rcases Nat.lt_succ_iff_lt_or_eq.mp hi with hi' | hi'
        · rw [getD_append_left rows [t] [] hi', getD_append_left ix [v] 0 (h1 ▸ hi')]
          exact h4 i hi'
        · subst hi'
          rw [getD_append_self rows t []]
          have hgs : (ix ++ [v]).getD rows.length 0 = v := by
            rw [← h1]
            exact getD_append_self ix v 0
          rw [hgs]
          exact hget

theorem insert_by_id_front (p q : List Int × Nat) (rest : List (List Int × Nat))
    (h : p.2 ≤ q.2) : insert_by_id p (q :: rest) = p :: q :: rest := by
  simp [insert_by_id, h]

theorem sort_by_id_of_sorted (l : List (List Int × Nat))
    (h : List.Sorted (· ≤ ·) (l.map Prod.snd)) : sort_by_id l = l := by
  induction l with
  | nil => rfl
  | cons p rest ih =>
    simp only [List.map_cons, List.sorted_cons] at h
    obtain ⟨hle, hrest⟩ := h
    simp only [sort_by_id, ih hrest]
    cases rest with
    | nil => rfl
    | cons q rest' =>
      exact insert_by_id_front p q rest'
        (hle q.2 (List.mem_map.mpr ⟨q, List.mem_cons_self _ _, rfl⟩))

/-- With ids assigned in first-seen order, the dictionary is already sorted by
id, so the emitted record table has the interned tuple with id `i` as row `i`. -/
theorem write_records_rows_getD (rec : List (List Int × Nat))
    (h2 : rec.map Prod.snd = List.range rec.length)
    (h5 : ∀ p q, p ∈ rec → q ∈ rec → p.2 = q.2 → p.1 = q.1) :
    (write_records_rows rec).length = rec.length ∧
    ∀ p ∈ rec, (write_records_rows rec).getD p.2 [] = p.1 := by
  have hsorted : List.Sorted (· ≤ ·) (rec.map Prod.snd) := by
    rw [h2]
    exact List.sorted_le_range _
  have hid : sort_by_id rec = rec := sort_by_id_of_sorted rec hsorted
  unfold write_records_rows
  rw [hid]
  refine ⟨by simp, ?_⟩
  intro p hp
  have hlt : p.2 < rec.length := by
    have hm : p.2 ∈ rec.map Prod.snd := List.mem_map.mpr ⟨p, hp, rfl⟩
    rw [h2] at hm
    exact List.mem_range.mp hm
  have hsnd : (rec.map Prod.snd)[p.2]? = some p.2 := by
    rw [h2]
    exact List.getElem?_range hlt
  rw [List.getElem?_map] at hsnd
  rcases he : rec[p.2]? with _ | e
  · rw [he] at hsnd; simp at hsnd
  · rw [he] at hsnd
    simp only [Option.map_some', Option.some.injEq] at hsnd
    have hmem : e ∈ rec := List.getElem?_mem he
    have hkey : e.1 = p.1 := h5 e p hmem hp hsnd
    rw [List.getD_eq_getElem?_getD, List.getElem?_map, he]
    simp [hkey]

/-- C5: record interning assigns ids 0, 1, 2, … in first-occurrence order, two
codepoints share a per-codepoint index exactly when their tuples are equal, the
catalog holds no two entries with equal tuples, and the emitted record table,
re-sorted by id, has the record interned with id `i` as row `i`. -/
theorem C5_record_interning (rows : List (List Int)) (ix : List Nat)
    (rec : List (List Int × Nat)) (hcomb : combine_tables_rows rows = (ix, rec)) :
    ix.length = rows.length ∧
    rec.map Prod.snd = List.range rec.length ∧
    (∀ c1 c2, c1 < rows.length → c2 < rows.length →
      (ix.getD c1 0 = ix.getD c2 0 ↔ rows.getD c1 [] = rows.getD c2 [])) ∧
    (∀ p q, p ∈ rec → q ∈ rec → p.1 = q.1 → p = q) ∧
    (write_records_rows rec).length = rec.length ∧
    (∀ p ∈ rec, (write_records_rows rec).getD p.2 [] = p.1) := by
  have hinv := combine_fold_inv rows
  set st := rows.foldl combine_step ([], []) with hst
  obtain ⟨ix', rec'⟩ := st
  obtain ⟨h1, h2, h3, h4, h5⟩ := hinv
  simp only at h1 h2 h3 h4 h5
  have hpair : (ix, rec) = (ix', rec') := by
    rw [← hcomb]
    unfold combine_tables_rows
    rw [← hst]
  injection hpair with hA hB
  subst hA
  subst hB
  obtain ⟨hwlen, hwrow⟩ := write_records_rows_getD rec h2 h5
  refine ⟨h1, h2, ?_, ?_, hwlen, hwrow⟩
  · intro c1 c2 hc1 hc2
    constructor
    · intro heq
      have hd1 := h4 c1 hc1
      have hd2 := h4 c2 hc2
      rw [heq] at hd1
      have hm1 := dict_get_mem hd1
      have hm2 := dict_get_mem hd2
      exact h5 _ _ hm1 hm2 rfl
    · intro heq
      have hd1 := h4 c1 hc1
      have hd2 := h4 c2 hc2
      rw [heq, hd2] at hd1
      exact (Option.some.inj hd1).symm
  · intro p q hp hq hkey
    have hd1 := h3 p hp
    have hd2 := h3 q hq
    rw [hkey, hd2] at hd1
    have hv := Option.some.inj hd1
    exact Prod.ext hkey hv.symm

/-- Concrete use of C5 on three rows with one repeated tuple. -/
theorem C5_record_interning_witness :
    combine_tables_rows [[1, 2], [3, 4], [1, 2]] = ([0, 1, 0], [([1, 2], 0), ([3, 4], 1)]) ∧
    (([0, 1, 0] : List Nat).length = 3 ∧
    ([([1, 2], 0), ([3, 4], 1)] : List (List Int × Nat)).map Prod.snd = List.range 2 ∧
    (∀ c1 c2, c1 < ([[1, 2], [3, 4], [1, 2]] : List (List Int)).length →
      c2 < ([[1, 2], [3, 4], [1, 2]] : List (List Int)).length →
      (([0, 1, 0] : List Nat).getD c1 0 = ([0, 1, 0] : List Nat).getD c2 0 ↔
        ([[1, 2], [3, 4], [1, 2]] : List (List Int)).getD c1 [] =
          ([[1, 2], [3, 4], [1, 2]] : List (List Int)).getD c2 [])) ∧
    (∀ p q, p ∈ ([([1, 2], 0), ([3, 4], 1)] : List (List Int × Nat)) →
      q ∈ ([([1, 2], 0), ([3, 4], 1)] : List (List Int × Nat)) → p.1 = q.1 → p = q) ∧
    (write_records_rows [([1, 2], 0), ([3, 4], 1)]).length = 2 ∧
    (∀ p ∈ ([([1, 2], 0), ([3, 4], 1)] : List (List Int × Nat)),
      (write_records_rows [([1, 2], 0), ([3, 4], 1)]).getD p.2 [] = p.1)) := by
  have h := C5_record_interning [[1, 2], [3, 4], [1, 2]] [0, 1, 0]
    [([1, 2], 0), ([3, 4], 1)] (by rfl)
  exact ⟨by rfl, by simpa using h⟩

/-- The candidate block sizes `[2 ** i for i in range(5, 10)]` tried by the
block-size search: 32, 64, 128, 256 and 512. -/
def candidate_block_sizes : List Nat := (List.range' 5 5).map (fun i => 2 ^ i)

/-- Elementwise round-trip of the two-stage compression: for a table whose
length is a multiple of the block size, the standard two-stage lookup
reproduces every table entry. -/
theorem compress_roundtrip {α : Type} [DecidableEq α] (table : List α) (bs : Nat)
    (s1 : List Nat) (s2 : List α) (d : α) (hbs : 0 < bs) (hdvd : bs ∣ table.length)
    (hcomp : compress_table table bs = (s1, s2)) {c : Nat} (hc : c < table.length) :
    s2.getD (s1.getD (c / bs) 0 * bs + c % bs) d = table.getD c d := by
  have hinv := compress_fold_inv hbs (chunksOf bs table)
    (fun b hb => chunksOf_mem_length hbs hdvd hb)
  set st := (chunksOf bs table).foldl (compress_step bs) ([], [], []) with hst
  obtain ⟨bl, s1', s2'⟩ := st
  obtain ⟨h1, h2, h3, h4, h5, h6, h7, h8⟩ := hinv
  simp only at h1 h2 h3 h4 h5 h6 h7 h8
  have hpair : (s1, s2) = (s1', s2') := by
    rw [← hcomp]
    unfold compress_table
    rw [← hst]
  injection hpair with hA hB
  subst hA
  subst hB
  have hclen : (chunksOf bs table).length = table.length / bs :=
    chunksOf_length bs hbs table hdvd
  have hi : c / bs < (chunksOf bs table).length := by
    rw [hclen]
    exact Nat.div_lt_div_of_lt_of_dvd hdvd hc
  have hd := h6 (c / bs) hi
  rw [chunksOf_getD bs table hi] at hd
  obtain ⟨ha, hb', hc'⟩ := h5 _ (dict_get_mem hd)
  have hmod : c % bs < bs := Nat.mod_lt _ hbs
  have helem := congrArg (fun l => l[c % bs]?) hc'
  simp only [List.getElem?_take_of_lt hmod, List.getElem?_drop] at helem
  have hsplit : c / bs * bs + c % bs = c := by
    rw [Nat.mul_comm]
    exact Nat.div_add_mod c bs
  rw [hsplit] at helem
  set v := s1.getD (c / bs) 0 with hv
  rw [List.getD_eq_getElem?_getD s2, List.getD_eq_getElem?_getD table, helem]

/-- C1: for any block size in the candidate set (hence in particular for the
one retained by the search, which divides `MAX_UNICODE` like every candidate),
the two-stage lookup `stage2[stage1[c / B] * B + c % B]` returns the record
index that `combine_tables` assigned to codepoint `c`, and that index resolves
in the emitted record table to the original tuple of property fields for `c`. -/
theorem C1_two_stage_roundtrip (rows : List (List Int)) (B c : Nat)
    (ix : List Nat) (rec : List (List Int × Nat)) (s1 s2 : List Nat)
    (hcomb : combine_tables_rows rows = (ix, rec))
    (hB : B ∈ candidate_block_sizes)
    (hdvd : B ∣ rows.length)
    (hcomp : compress_table ix B = (s1, s2))
    (hc : c < rows.length) :
    s2.getD (s1.getD (c / B) 0 * B + c % B) 0 = ix.getD c 0 ∧
    (write_records_rows rec).getD (ix.getD c 0) [] = rows.getD c [] ∧
    (∀ b ∈ candidate_block_sizes, b ∣ MAX_UNICODE) := by
  have hBpos : 0 < B := by
    have hcand : candidate_block_sizes = [32, 64, 128, 256, 512] := by rfl
    rw [hcand] at hB
    simp only [List.mem_cons, List.not_mem_nil, or_false] at hB
    rcases hB with rfl | rfl | rfl | rfl | rfl <;> decide
  have hinv := combine_fold_inv rows
  set st := rows.foldl combine_step ([], []) with hst
  obtain ⟨ix', rec'⟩ := st
  obtain ⟨h1, h2, h3, h4, h5⟩ := hinv
  simp only at h1 h2 h3 h4 h5
  have hpair : (ix, rec) = (ix', rec') := by
    rw [← hcomb]
    unfold combine_tables_rows
    rw [← hst]
  injection hpair with hA hB2
  subst hA
  subst hB2
  have hdvd' : B ∣ ix.length := by rw [h1]; exact hdvd
  have hc' : c < ix.length := by rw [h1]; exact hc
  refine ⟨compress_roundtrip ix B s1 s2 0 hBpos hdvd' hcomp hc', ?_, by decide⟩
  obtain ⟨hwlen, hwrow⟩ := write_records_rows_getD rec h2 h5
  exact hwrow _ (dict_get_mem (h4 c hc))

/-- Concrete use of C1 on 32 identical rows with block size 32. -/
theorem C1_two_stage_roundtrip_witness :
    combine_tables_rows (List.replicate 32 [(0 : Int)]) =
      (List.replicate 32 0, [([0], 0)]) ∧
    32 ∈ candidate_block_sizes ∧
    compress_table (List.replicate 32 (0 : Nat)) 32 = ([0], List.replicate 32 0) ∧
    ((List.replicate 32 (0 : Nat)).getD
        (([0] : List Nat).getD (5 / 32) 0 * 32 + 5 % 32) 0 =
      (List.replicate 32 (0 : Nat)).getD 5 0 ∧
    (write_records_rows [([0], 0)]).getD ((List.replicate 32 (0 : Nat)).getD 5 0) [] =
      (List.replicate 32 [(0 : Int)]).getD 5 [] ∧
    (∀ b ∈ candidate_block_sizes, b ∣ MAX_UNICODE)) := by
  have h := C1_two_stage_roundtrip (List.replicate 32 [(0 : Int)]) 32 5
    (List.replicate 32 0) [([0], 0)] [0] (List.replicate 32 0)
    (by rfl) (by decide) (by decide) (by rfl) (by decide)
  exact ⟨by rfl, by decide, by rfl, h⟩

/-- Python `sys.maxsize` on a 64-bit build, the initial `min_size`. -/
def sys_maxsize : Nat := 2 ^ 63 - 1

/-- `get_tables_size`: total byte size of a list of tables, each at the width
chosen by `get_type_size`; propagates that function's failure. -/
def get_tables_size : List (List Int) → Except String Nat
  | [] => .ok 0
  | t :: ts =>
    match get_type_size t with
    | .error e => .error e
    | .ok (_, size) =>
      match get_tables_size ts with
      | .error e => .error e
      | .ok rest => .ok (size * t.length + rest)

/-- Total encoded size of one candidate block size: `len(records) * record_size`
plus the sizes of the two stage tables, as computed inside the search loop. -/
def total_size (table : List Int) (nrec rsize bs : Nat) : Except String Nat :=
  match get_tables_size [(compress_table table bs).1.map Int.ofNat,
      (compress_table table bs).2] with
  | .error e => .error e
  | .ok t => .ok (nrec * rsize + t)

/-- The body of the search over candidate block sizes, carrying the running
minimum `min_size` and the retained `(block size, stage1, stage2)` triple;
an update happens only on a strict size improvement. -/
def search_go (table : List Int) (nrec rsize : Nat) :
    List Nat → Nat → Option (Nat × List Nat × List Int) →
    Except String (Nat × Option (Nat × List Nat × List Int))
  | [], m, best => .ok (m, best)
  | bs :: rest, m, best =>
    match total_size table nrec rsize bs with
    | .error e => .error e
    | .ok t =>
      if t < m then
        search_go table nrec rsize rest t (some (bs, compress_table table bs))
      else search_go table nrec rsize rest m best

/-- The source's block-size search: candidates `[2 ** i for i in range(5, 10)]`
in ascending order, starting from `min_size = sys.maxsize`. -/
def min_block_search (table : List Int) (nrec rsize : Nat) :
    Except String (Nat × Option (Nat × List Nat × List Int)) :=
  search_go table nrec rsize candidate_block_sizes sys_maxsize none

theorem search_go_spec (table : List Int) (nrec rsize : Nat) (cs : List Nat) :
    ∀ (m : Nat) (best : Option (Nat × List Nat × List Int)),
    (∀ bs ∈ cs, ∃ t, total_size table nrec rsize bs = .ok t) →
    ∃ res, search_go table nrec rsize cs m best = .ok res ∧
      (((∀ bs ∈ cs, ∀ t, total_size table nrec rsize bs = .ok t → m ≤ t) ∧
        res = (m, best)) ∨
       (∃ pre b post tb, cs = pre ++ b :: post ∧
         total_size table nrec rsize b = .ok tb ∧ tb < m ∧
         res = (tb, some (b, compress_table table b)) ∧
         (∀ bs ∈ pre, ∀ t, total_size table nrec rsize bs = .ok t → tb < t) ∧
         (∀ bs ∈ post, ∀ t, total_size table nrec rsize bs = .ok t → tb ≤ t))) := by
  induction cs with
  | nil =>
    intro m best _
    exact ⟨(m, best), rfl, Or.inl ⟨by simp, rfl⟩⟩
  | cons bs0 rest ih =>
    intro m best hok
    obtain ⟨t0, ht0⟩ := hok bs0 (List.mem_cons_self _ _)
    have hokrest : ∀ bs ∈ rest, ∃ t, total_size table nrec rsize bs = .ok t :=
      fun bs hbs => hok bs (List.mem_cons_of_mem _ hbs)
    simp only [search_go]
    rw [ht0]
    dsimp only
    by_cases hlt : t0 < m
    · rw [if_pos hlt]
      obtain ⟨res, hres, hcase⟩ := ih t0 (some (bs0, compress_table table bs0)) hokrest
      refine ⟨res, hres, Or.inr ?_⟩
      rcases hcase with ⟨hall, hres'⟩ | ⟨pre, b, post, tb, hcs, htb, htbm, hres', hpre, hpost⟩
      · exact ⟨[], bs0, rest, t0, rfl, ht0, hlt, hres', by simp, hall⟩
      · refine ⟨bs0 :: pre, b, post, tb, by rw [hcs]; rfl, htb,
          lt_trans htbm hlt, hres', ?_, hpost⟩
        intro bs hbs t ht
        rcases List.mem_cons.mp hbs with rfl | hbs'
        · have hteq : t = t0 := by
            rw [ht] at ht0
            exact (Except.ok.inj ht0)
          omega
        · exact hpre bs hbs' t ht
    · rw [if_neg hlt]
      obtain ⟨res, hres, hcase⟩ := ih m best hokrest
      refine ⟨res, hres, ?_⟩
      rcases hcase with ⟨hall, hres'⟩ | ⟨pre, b, post, tb, hcs, htb, htbm, hres', hpre, hpost⟩
      · refine Or.inl ⟨?_, hres'⟩
        intro bs hbs t ht
        rcases List.mem_cons.mp hbs with rfl | hbs'
        · have hteq : t = t0 := by
            rw [ht] at ht0
            exact (Except.ok.inj ht0)
          omega
        · exact hall bs hbs' t ht
      · refine Or.inr ⟨bs0 :: pre, b, post, tb, by rw [hcs]; rfl, htb, htbm, hres', ?_, hpost⟩
        intro bs hbs t ht
        rcases List.mem_cons.mp hbs with rfl | hbs'
        · have hteq : t = t0 := by
            rw [ht] at ht0
            exact (Except.ok.inj ht0)
          omega
        · exact hpre bs hbs' t ht

/-- C2: the search tries exactly the candidates 32, 64, 128, 256, 512 in this
order; each candidate's total is `len(records) * record_size` plus the two
stage-table sizes at their selected widths; the retained block size attains the
minimum total over all candidates, and every candidate tried before it has a
strictly larger total (first minimum wins). -/
theorem C2_block_size_optimality (table : List Int) (nrec rsize : Nat)
    (hok : ∀ bs ∈ candidate_block_sizes,
      ∃ t, total_size table nrec rsize bs = .ok t ∧ t < sys_maxsize) :
    candidate_block_sizes = [32, 64, 128, 256, 512] ∧
    ∃ m B s1 s2, min_block_search table nrec rsize = .ok (m, some (B, s1, s2)) ∧
      B ∈ candidate_block_sizes ∧
      compress_table table B = (s1, s2) ∧
      total_size table nrec rsize B = .ok m ∧
      (∀ bs ∈ candidate_block_sizes, ∀ t,
        total_size table nrec rsize bs = .ok t → m ≤ t) ∧
      (∃ pre post, candidate_block_sizes = pre ++ B :: post ∧
        (∀ bs ∈ pre, ∀ t, total_size table nrec rsize bs = .ok t → m < t)) := by
  refine ⟨by rfl, ?_⟩
  obtain ⟨res, hres, hcase⟩ := search_go_spec table nrec rsize candidate_block_sizes
    sys_maxsize none (fun bs hbs => ⟨(hok bs hbs).choose, (hok bs hbs).choose_spec.1⟩)
  rcases hcase with ⟨hall, hres'⟩ | ⟨pre, b, post, tb, hcs, htb, htbm, hres', hpre, hpost⟩
  · obtain ⟨t32, ht32, hlt32⟩ := hok 32 (by decide)
    have := hall 32 (by decide) t32 ht32
    exact absurd hlt32 (by unfold sys_maxsize at *; omega)
  · rcases hcc : compress_table table b with ⟨s1, s2⟩
    refine ⟨tb, b, s1, s2, ?_, ?_, hcc, htb, ?_, pre, post, hcs, hpre⟩
    · unfold min_block_search
      rw [hres, hres', hcc]
    · rw [hcs]
      exact List.mem_append_right _ (List.mem_cons_self _ _)
    · intro bs hbs t ht
      rw [hcs] at hbs
      rcases List.mem_append.mp hbs with hbs' | hbs'
      · exact le_of_lt (hpre bs hbs' t ht)
      · rcases List.mem_cons.mp hbs' with rfl | hbs''
        · rw [ht] at htb
          have : t = tb := (Except.ok.inj htb)
          omega
        · exact hpost bs hbs'' t ht

/-- Concrete use of C2 on the table `[0, 1]`: all candidates tie at total 15,
so the first candidate, 32, is retained. -/
theorem C2_block_size_optimality_witness :
    candidate_block_sizes = [32, 64, 128, 256, 512] ∧
    ∃ m B s1 s2, min_block_search [0, 1] 1 12 = .ok (m, some (B, s1, s2)) ∧
      B ∈ candidate_block_sizes ∧
      compress_table [0, 1] B = (s1, s2) ∧
      total_size [0, 1] 1 12 B = .ok m ∧
      (∀ bs ∈ candidate_block_sizes, ∀ t,
        total_size [0, 1] 1 12 bs = .ok t → m ≤ t) ∧
      (∃ pre post, candidate_block_sizes = pre ++ B :: post ∧
        (∀ bs ∈ pre, ∀ t, total_size [0, 1] 1 12 bs = .ok t → m < t)) := by
  refine C2_block_size_optimality [0, 1] 1 12 ?_
  intro bs hbs
  have hcand : candidate_block_sizes = [32, 64, 128, 256, 512] := by rfl
  rw [hcand] at hbs
  simp only [List.mem_cons, List.not_mem_nil, or_false] at hbs
  rcases hbs with rfl | rfl | rfl | rfl | rfl <;> exact ⟨15, by rfl, by decide⟩

/-- Set equality of two tag lists, mirroring `set(a) == set(b)` in the
boolean-property dedup loop (order and multiplicity are ignored). -/
def set_eq (a b : List Nat) : Bool := a.all (· ∈ b) && b.all (· ∈ a)

/-- One iteration of the boolean-property dedup loop: find the first catalog
entry whose set equals this codepoint's list, appending the list as a new
catalog entry when none matches, and stamp the codepoint with the index. -/
def bool_props_step (st : List (List Nat) × List Nat) (l : List Nat) :
    List (List Nat) × List Nat :=
  match st.1.findIdx? (fun x => set_eq l x) with
  | some i => (st.1, st.2 ++ [i])
  | none => (st.1 ++ [l], st.2 ++ [st.1.length])

/-- The boolean-property dedup loop over all codepoints, starting from the
catalog `bool_props_lists = [[]]` whose entry 0 is the guaranteed empty set. -/
def bool_props_encode (bprops : List (List Nat)) : List (List Nat) × List Nat :=
  bprops.foldl bool_props_step ([[]], [])

/-- The range-update part of `read_table`: starting from `n` copies of the
default, set each in-range codepoint to the entry's value, but only when the
current value is still the default. Entries are `(char, last, value)` triples;
for `scriptx` the default is 0, the offset of the empty script-extension set. -/
def read_table_entries (entries : List (Nat × Nat × Int)) (dflt : Int)
    (n : Nat) : List Int :=
  entries.foldl
    (fun tbl e => tbl.mapIdx (fun i v =>
      if e.1 ≤ i ∧ i ≤ e.2.1 ∧ v = dflt then e.2.2 else v))
    (List.replicate n dflt)

theorem set_eq_iff (a b : List Nat) :
    set_eq a b = true ↔ ((∀ x ∈ a, x ∈ b) ∧ (∀ x ∈ b, x ∈ a)) := by
  simp [set_eq, List.all_eq_true, decide_eq_true_eq]

theorem set_eq_refl (a : List Nat) : set_eq a a = true := by
  rw [set_eq_iff]
  exact ⟨fun x hx => hx, fun x hx => hx⟩

theorem set_eq_symm {a b : List Nat} (h : set_eq a b = true) : set_eq b a = true := by
  rw [set_eq_iff] at h ⊢
  exact ⟨h.2, h.1⟩

theorem set_eq_trans {a b c : List Nat} (hab : set_eq a b = true)
    (hbc : set_eq b c = true) : set_eq a c = true := by
  rw [set_eq_iff] at hab hbc ⊢
  exact ⟨fun x hx => hbc.1 x (hab.1 x hx), fun x hx => hab.2 x (hbc.2 x hx)⟩

/-- Invariant of the boolean-property dedup fold. -/
def BoolInv (processed : List (List Nat)) (st : List (List Nat) × List Nat) : Prop :=
  st.2.length = processed.length ∧
  0 < st.1.length ∧
  st.1.getD 0 [] = [] ∧
  List.Pairwise (fun a b => set_eq a b = false) st.1 ∧
  (∀ c, c < processed.length → st.2.getD c 0 < st.1.length ∧
    set_eq (processed.getD c []) (st.1.getD (st.2.getD c 0) []) = true)

theorem bool_props_fold_inv (bprops : List (List Nat)) :
    BoolInv bprops (bprops.foldl bool_props_step ([[]], [])) := by
  induction bprops using List.reverseRecOn with
  | nil =>
    refine ⟨rfl, by decide, rfl, ?_, ?_⟩ <;> simp
  | append_singleton bp l ih =>
    obtain ⟨h1, h2, h3, h4, h5⟩ := ih
    rw [List.foldl_append]
    set st := bp.foldl bool_props_step ([[]], []) with hst
    obtain ⟨lists, props⟩ := st
    simp only at h1 h2 h3 h4 h5
    simp only [List.foldl_cons, List.foldl_nil]
    rcases hfind : lists.findIdx? (fun x => set_eq l x) with _ | i
    · -- no set-equal entry: append the list as a new catalog entry
      have hnone : ∀ x ∈ lists, set_eq l x = false :=
        List.findIdx?_eq_none_iff.mp hfind
      simp only [bool_props_step, hfind]
      refine ⟨?_, ?_, ?_, ?_, ?_⟩ <;> dsimp only
      · simp [h1]
      · simp only [List.length_append]
        omega
      · rw [getD_append_left lists [l] [] h2]
        exact h3
      · rw [List.pairwise_append]
        refine ⟨h4, List.pairwise_singleton _ _, ?_⟩
        intro a ha b hb
        obtain rfl := List.mem_singleton.mp hb
        by_contra hcon
        rw [Bool.not_eq_false] at hcon
        have hsymm := set_eq_symm hcon
        rw [hnone a ha] at hsymm
        cases hsymm
      · intro c hc
        simp only [List.length_append, List.length_singleton] at hc
        rcases Nat.lt_succ_iff_lt_or_eq.mp hc with hc' | hc'
        · obtain ⟨hi, hs⟩ := h5 c hc'
          rw [getD_append_left bp [l] [] hc', getD_append_left props [lists.length] 0 (h1 ▸ hc')]
          refine ⟨by simp only [List.length_append]; omega, ?_⟩
          rw [getD_append_left lists [l] [] hi]
          exact hs
        · subst hc'
          rw [getD_append_self bp l []]
          have hgs : (props ++ [lists.length]).getD bp.length 0 = lists.length := by
            rw [← h1]
            exact getD_append_self props lists.length 0
          rw [hgs]
          refine ⟨by simp, ?_⟩
          rw [getD_append_self lists l []]
          exact set_eq_refl l
    · -- found the first set-equal entry: stamp its index
      have hsome := List.findIdx?_eq_some_iff_getElem.mp hfind
      obtain ⟨hil, hpi, hfirst⟩ := hsome
      simp only [bool_props_step, hfind]
      refine ⟨?_, h2, h3, h4, ?_⟩ <;> dsimp only
      · simp [h1]
      · intro c hc
        simp only [List.length_append, List.length_singleton] at hc
        rcases Nat.lt_succ_iff_lt_or_eq.mp hc with hc' | hc'
        · obtain ⟨hi, hs⟩ := h5 c hc'
          rw [getD_append_left bp [l] [] hc', getD_append_left props [i] 0 (h1 ▸ hc')]
          exact ⟨hi, hs⟩
        · subst hc'
          rw [getD_append_self bp l []]
          have hgs : (props ++ [i]).getD bp.length 0 = i := by
            rw [← h1]
            exact getD_append_self props i 0
          rw [hgs]
          refine ⟨hil, ?_⟩
          have : lists.getD i [] = lists[i] := by
            rw [List.getD_eq_getElem?_getD, List.getElem?_eq_getElem hil]
            rfl
          rw [this]
          exact hpi

theorem read_table_uncovered_aux (c : Nat) (dflt : Int)
    (entries : List (Nat × Nat × Int)) :
    ∀ tbl : List Int, tbl[c]? = some dflt →
    (∀ e ∈ entries, ¬(e.1 ≤ c ∧ c ≤ e.2.1)) →
    (entries.foldl
      (fun tbl e => tbl.mapIdx (fun i v =>
        if e.1 ≤ i ∧ i ≤ e.2.1 ∧ v = dflt then e.2.2 else v)) tbl)[c]? = some dflt := by
  induction entries with
  | nil => intro tbl h _; exact h
  | cons e rest ih =>
    intro tbl h hnc
    simp only [List.foldl_cons]
    refine ih _ ?_ (fun e' he' => hnc e' (List.mem_cons_of_mem _ he'))
    rw [List.getElem?_mapIdx, h]
    have hne := hnc e (List.mem_cons_self _ _)
    simp only [Option.map_some']
    congr 1
    rw [if_neg]
    intro hcon
    exact hne ⟨hcon.1, hcon.2.1⟩

/-- C6: two codepoints get the same boolean-property index exactly when their
tag lists are set-equal; the catalog holds no two set-equal entries; entry 0 is
the empty set and is always present; a codepoint with an empty set is stamped
with index 0; and a codepoint covered by no script-extension range keeps the
scriptx default 0, the offset of the empty script-extension bitmap. -/
theorem C6_bool_props_dedup (bprops : List (List Nat)) (lists : List (List Nat))
    (props : List Nat) (hrun : bool_props_encode bprops = (lists, props)) :
    props.length = bprops.length ∧
    0 < lists.length ∧
    lists.getD 0 [] = [] ∧
    (∀ c1 c2, c1 < bprops.length → c2 < bprops.length →
      (props.getD c1 0 = props.getD c2 0 ↔
        set_eq (bprops.getD c1 []) (bprops.getD c2 []) = true)) ∧
    (∀ i j, i < j → j < lists.length →
      set_eq (lists.getD i []) (lists.getD j []) = false) ∧
    (∀ c, c < bprops.length → bprops.getD c [] = [] → props.getD c 0 = 0) ∧
    (∀ (entries : List (Nat × Nat × Int)) (c n : Nat), c < n →
      (∀ e ∈ entries, ¬(e.1 ≤ c ∧ c ≤ e.2.1)) →
      (read_table_entries entries 0 n)[c]? = some 0) := by
  have hinv := bool_props_fold_inv bprops
  set st := bprops.foldl bool_props_step ([[]], []) with hst
  obtain ⟨lists', props'⟩ := st
  obtain ⟨h1, h2, h3, h4, h5⟩ := hinv
  simp only at h1 h2 h3 h4 h5
  have hpair : (lists, props) = (lists', props') := by
    rw [← hrun]
    unfold bool_props_encode
    rw [← hst]
  injection hpair with hA hB
  subst hA
  subst hB
  have hpw : ∀ i j, i < j → j < lists.length →
      set_eq (lists.getD i []) (lists.getD j []) = false := by
    intro i j hij hj
    have hi2 : i < lists.length := lt_trans hij hj
    have hpg := List.pairwise_iff_getElem.mp h4 i j hi2 hj hij
    have hgi : lists.getD i [] = lists[i] := by
      rw [List.getD_eq_getElem?_getD, List.getElem?_eq_getElem hi2]
      rfl
    have hgj : lists.getD j [] = lists[j] := by
      rw [List.getD_eq_getElem?_getD, List.getElem?_eq_getElem hj]
      rfl
    rw [hgi, hgj]
    exact hpg
  have hindex_eq : ∀ c1 c2, c1 < bprops.length → c2 < bprops.length →
      (props.getD c1 0 = props.getD c2 0 ↔
        set_eq (bprops.getD c1 []) (bprops.getD c2 []) = true) := by
    intro c1 c2 hc1 hc2
    obtain ⟨hi1, hs1⟩ := h5 c1 hc1
    obtain ⟨hi2, hs2⟩ := h5 c2 hc2
    constructor
    · intro heq
      rw [heq] at hs1
      exact set_eq_trans hs1 (set_eq_symm hs2)
    · intro heq
      by_contra hne
      rcases Nat.lt_or_ge (props.getD c1 0) (props.getD c2 0) with hlt | hge
      · have hff := hpw _ _ hlt hi2
        have htt : set_eq (lists.getD (props.getD c1 0) [])
            (lists.getD (props.getD c2 0) []) = true :=
          set_eq_trans (set_eq_symm hs1) (set_eq_trans heq hs2)
        rw [hff] at htt
        cases htt
      · have hlt2 : props.getD c2 0 < props.getD c1 0 := by omega
        have hff := hpw _ _ hlt2 hi1
        have htt : set_eq (lists.getD (props.getD c2 0) [])
            (lists.getD (props.getD c1 0) []) = true :=
          set_eq_trans (set_eq_symm hs2) (set_eq_trans (set_eq_symm heq) hs1)
        rw [hff] at htt
        cases htt
  refine ⟨h1, h2, h3, hindex_eq, hpw, ?_, ?_⟩
  · intro c hc hempty
    obtain ⟨hi, hs⟩ := h5 c hc
    rw [hempty] at hs
    by_contra hne
    have hpos : 0 < props.getD c 0 := Nat.pos_of_ne_zero hne
    have hff := hpw 0 (props.getD c 0) hpos hi
    rw [h3] at hff
    have htt : set_eq [] (lists.getD (props.getD c 0) []) = true := hs
    rw [hff] at htt
    cases htt
  · intro entries c n hc hnc
    unfold read_table_entries
    refine read_table_uncovered_aux c 0 entries (List.replicate n 0) ?_ hnc
    rw [List.getElem?_replicate]
    rw [if_pos hc]

/-- Concrete use of C6: four codepoints, one with an empty tag list, one a
set-equal permutation with a repeat; plus an uncovered scriptx codepoint. -/
theorem C6_bool_props_dedup_witness :
    bool_props_encode [[3, 2], [], [2, 3, 3], [7]] =
      ([[], [3, 2], [7]], [1, 0, 1, 2]) ∧
    (([1, 0, 1, 2] : List Nat).length = 4 ∧
    0 < ([[], [3, 2], [7]] : List (List Nat)).length ∧
    ([[], [3, 2], [7]] : List (List Nat)).getD 0 [] = [] ∧
    (∀ c1 c2, c1 < ([[3, 2], [], [2, 3, 3], [7]] : List (List Nat)).length →
      c2 < ([[3, 2], [], [2, 3, 3], [7]] : List (List Nat)).length →
      (([1, 0, 1, 2] : List Nat).getD c1 0 = ([1, 0, 1, 2] : List Nat).getD c2 0 ↔
        set_eq (([[3, 2], [], [2, 3, 3], [7]] : List (List Nat)).getD c1 [])
          (([[3, 2], [], [2, 3, 3], [7]] : List (List Nat)).getD c2 []) = true)) ∧
    (∀ i j, i < j → j < ([[], [3, 2], [7]] : List (List Nat)).length →
      set_eq (([[], [3, 2], [7]] : List (List Nat)).getD i [])
        (([[], [3, 2], [7]] : List (List Nat)).getD j []) = false) ∧
    (∀ c, c < ([[3, 2], [], [2, 3, 3], [7]] : List (List Nat)).length →
      ([[3, 2], [], [2, 3, 3], [7]] : List (List Nat)).getD c [] = [] →
      ([1, 0, 1, 2] : List Nat).getD c 0 = 0) ∧
    (∀ (entries : List (Nat × Nat × Int)) (c n : Nat), c < n →
      (∀ e ∈ entries, ¬(e.1 ≤ c ∧ c ≤ e.2.1)) →
      (read_table_entries entries 0 n)[c]? = some 0)) :=
  ⟨by rfl, C6_bool_props_dedup [[3, 2], [], [2, 3, 3], [7]]
    [[], [3, 2], [7]] [1, 0, 1, 2] (by rfl)⟩

/-- The body of `while first < last: digitsets.append(first + 9); first += 10`
for one declared decimal-digit range. -/
def digit_run (first last : Nat) : List Nat :=
  if first < last then (first + 9) :: digit_run (first + 10) last else []
termination_by last - first

/-- Ascending insertion, the helper of `sort_nat`. -/
def insert_sorted (x : Nat) : List Nat → List Nat
  | [] => [x]
  | y :: rest => if x ≤ y then x :: y :: rest else y :: insert_sorted x rest

/-- Ascending sort on codepoints, modelling the `digitsets.sort()` call. -/
def sort_nat : List Nat → List Nat
  | [] => []
  | x :: rest => insert_sorted x (sort_nat rest)

/-- The per-range digit-set collection. A range whose length is not a multiple
of ten executes `f.write("ERROR: ...", file=sys.stderr)`; the file `write`
method accepts no `file` keyword argument, so that call raises `TypeError`
and the run aborts. Good ranges contribute one value per step of ten. -/
def digitsets_ranges : List (Nat × Nat) → Except String (List Nat)
  | [] => .ok []
  | (first, last) :: rest =>
    if (last - first + 1) % 10 ≠ 0 then
      .error "TypeError: write() takes no keyword arguments"
    else
      match digitsets_ranges rest with
      | .error e => .error e
      | .ok r => .ok (digit_run first last ++ r)

/-- The digit-set scan over the declared `Nd` ranges followed by the final
`digitsets.sort()`. -/
def digitsets_scan (ranges : List (Nat × Nat)) : Except String (List Nat) :=
  match digitsets_ranges ranges with
  | .error e => .error e
  | .ok vals => .ok (sort_nat vals)

/-- The emoji scan: for every Extended_Pictographic range, warn via `print`
(which does not abort) when the previously recorded break property is not the
default, then overwrite it; returns the updated table and the warning count. -/
def emoji_step (other ep : Nat) (st : List Nat × Nat) (r : Nat × Nat) :
    List Nat × Nat :=
  (st.1.mapIdx (fun i v => if r.1 ≤ i ∧ i ≤ r.2 then ep else v),
   st.2 + ((List.range st.1.length).filter
     (fun i => decide (r.1 ≤ i) && decide (i ≤ r.2) &&
       decide (st.1.getD i 0 ≠ other))).length)

/-- The whole emoji-data scan modifying the break-property table. -/
def emoji_override (other ep : Nat) (bp : List Nat) (ranges : List (Nat × Nat)) :
    List Nat × Nat :=
  ranges.foldl (emoji_step other ep) (bp, 0)

theorem insert_sorted_perm (x : Nat) (l : List Nat) :
    List.Perm (insert_sorted x l) (x :: l) := by
  induction l with
  | nil => exact List.Perm.refl _
  | cons y rest ih =>
    simp only [insert_sorted]
    by_cases h : x ≤ y
    · rw [if_pos h]
    · rw [if_neg h]
      exact List.Perm.trans (List.Perm.cons y ih) (List.Perm.swap x y rest)

theorem insert_sorted_sorted (x : Nat) (l : List Nat)
    (h : List.Sorted (· ≤ ·) l) : List.Sorted (· ≤ ·) (insert_sorted x l) := by
  induction l with
  | nil => simp [insert_sorted]
  | cons y rest ih =>
    rw [List.sorted_cons] at h
    simp only [insert_sorted]
    by_cases hxy : x ≤ y
    · rw [if_pos hxy, List.sorted_cons]
      refine ⟨?_, List.sorted_cons.mpr h⟩
      intro b hb
      rcases List.mem_cons.mp hb with rfl | hb'
      · exact hxy
      · exact le_trans hxy (h.1 b hb')
    · rw [if_neg hxy, List.sorted_cons]
      refine ⟨?_, ih h.2⟩
      intro b hb
      have hb' : b ∈ x :: rest := (insert_sorted_perm x rest).mem_iff.mp hb
      rcases List.mem_cons.mp hb' with rfl | hb''
      · omega
      · exact h.1 b hb''

theorem sort_nat_sorted_perm (l : List Nat) :
    List.Sorted (· ≤ ·) (sort_nat l) ∧ List.Perm (sort_nat l) l := by
  induction l with
  | nil => exact ⟨List.sorted_nil, List.Perm.refl _⟩
  | cons x rest ih =>
    simp only [sort_nat]
    exact ⟨insert_sorted_sorted x _ ih.1,
      List.Perm.trans (insert_sorted_perm x _) (List.Perm.cons x ih.2)⟩

theorem digit_run_closed_form (k : Nat) :
    ∀ first, digit_run first (first + 10 * k + 9) =
      (List.range' first (k + 1) 10).map (fun s => s + 9) := by
  induction k with
  | zero =>
    intro first
    rw [digit_run]
    rw [if_pos (by omega), digit_run, if_neg (by omega)]
    rw [List.range'_one]
    rfl
  | succ k ih =>
    intro first
    rw [digit_run, if_pos (by omega)]
    have harg : first + 10 * (k + 1) + 9 = (first + 10) + 10 * k + 9 := by omega
    rw [harg, ih (first + 10)]
    rw [List.range'_succ first (k + 1) 10, List.map_cons]

/-- C7 (amended): each range whose length is a multiple of ten contributes one
value per step of ten, namely start-of-step plus 9; a range whose length is not
a multiple of ten makes the scan abort (its warning write raises); the final
output is the ascending sort of the collected values; and the 20-codepoint
range `[0x30, 0x43]` produces exactly `[0x39, 0x43]`. -/
theorem C7_digit_runs_amended :
    (∀ first k, digit_run first (first + 10 * k + 9) =
      (List.range' first (k + 1) 10).map (fun s => s + 9)) ∧
    (∀ first last rest, (last - first + 1) % 10 ≠ 0 →
      digitsets_ranges ((first, last) :: rest) =
        .error "TypeError: write() takes no keyword arguments") ∧
    (∀ ranges vals, digitsets_ranges ranges = .ok vals →
      digitsets_scan ranges = .ok (sort_nat vals) ∧
      List.Sorted (· ≤ ·) (sort_nat vals) ∧ List.Perm (sort_nat vals) vals) ∧
    digitsets_scan [(0x30, 0x43)] = .ok [0x39, 0x43] := by
  refine ⟨fun first k => digit_run_closed_form k first, ?_, ?_, ?_⟩
  · intro first last rest hbad
    simp only [digitsets_ranges]
    rw [if_pos hbad]
  · intro ranges vals hok
    refine ⟨?_, (sort_nat_sorted_perm vals).1, (sort_nat_sorted_perm vals).2⟩
    unfold digitsets_scan
    rw [hok]
  · have h1 : digitsets_ranges [(0x30, 0x43)] = .ok [0x39, 0x43] := by
      simp only [digitsets_ranges]
      rw [if_neg (by decide)]
      have h2 : (0x43 : Nat) = 0x30 + 10 * 1 + 9 := by decide
      rw [h2, digit_run_closed_form 1 0x30]
      rfl
    unfold digitsets_scan
    rw [h1]
    rfl

/-- Concrete use of C7: the run for the ten-codepoint range starting at 0x30
is `[0x39]`, via the closed form with `k = 0`. -/
theorem C7_digit_runs_amended_witness :
    digit_run 0x30 (0x30 + 10 * 0 + 9) =
      (List.range' 0x30 (0 + 1) 10).map (fun s => s + 9) :=
  C7_digit_runs_amended.1 0x30 0

/-- C7 (counterexample): the declared range `[0x30, 0x49]` has 26 codepoints,
not 20; its raw stepping loop would yield three values, not two, and the scan
as written aborts on it instead of returning `[0x39, 0x43]`. -/
theorem C7_digit_runs_counterexample :
    (0x49 - 0x30 + 1 = 26) ∧
    digit_run 0x30 0x49 = [0x39, 0x43, 0x4D] ∧
    digitsets_scan [(0x30, 0x49)] =
      .error "TypeError: write() takes no keyword arguments" ∧
    digitsets_scan [(0x30, 0x49)] ≠ .ok [0x39, 0x43] := by
  have hrun : digit_run 0x30 0x49 = [0x39, 0x43, 0x4D] := by
    rw [digit_run, if_pos (by omega), digit_run, if_pos (by omega),
      digit_run, if_pos (by omega), digit_run, if_neg (by omega)]
  have hscan : digitsets_scan [(0x30, 0x49)] =
      .error "TypeError: write() takes no keyword arguments" := by
    unfold digitsets_scan
    simp only [digitsets_ranges]
    rw [if_pos (by decide)]
  refine ⟨by decide, hrun, hscan, ?_⟩
  rw [hscan]
  intro hcon
  cases hcon

theorem emoji_foldl_length (other ep : Nat) (ranges : List (Nat × Nat)) :
    ∀ st : List Nat × Nat,
    (ranges.foldl (emoji_step other ep) st).1.length = st.1.length := by
  induction ranges with
  | nil => intro st; rfl
  | cons r rest ih =>
    intro st
    simp only [List.foldl_cons]
    rw [ih (emoji_step other ep st r)]
    simp [emoji_step]

/-- C9: on a decimal-digit range whose length is not a multiple of ten, the
generator does not warn and proceed: the malformed `f.write(..., file=...)`
call raises `TypeError` and the run aborts. The emoji break-property override,
by contrast, is genuinely non-fatal: it always completes, preserving the table
length, counting one warning per overridden codepoint whose recorded class is
not the default while still overwriting it. -/
theorem C9_digit_warning_aborts :
    digitsets_scan [(0x60, 0x79)] =
      .error "TypeError: write() takes no keyword arguments" ∧
    (∀ other ep bp (ranges : List (Nat × Nat)),
      (emoji_override other ep bp ranges).1.length = bp.length) ∧
    emoji_override 12 14 [12, 3, 12] [(1, 2)] = ([12, 14, 14], 1) := by
  refine ⟨?_, ?_, by rfl⟩
  · unfold digitsets_scan
    simp only [digitsets_ranges]
    rw [if_pos (by decide)]
  · intro other ep bp ranges
    unfold emoji_override
    exact emoji_foldl_length other ep ranges (bp, 0)

/-- The target index `c + other_case[c]` of a signed case delta, as a natural
number (in the Unicode data every delta points at a valid codepoint). -/
def delta_target (oc : Nat → Int) (c : Nat) : Nat := ((c : Int) + oc c).toNat

/-- One step of the repair pass over `other_case`: `if other_case[c] != 0 and
other_case[c + other_case[c]] == 0: other_case[c + other_case[c]] = -other_case[c]`. -/
def repair_step (f : Nat → Int) (c : Nat) : Nat → Int :=
  if f c ≠ 0 ∧ f (delta_target f c) = 0 then
    fun x => if x = delta_target f c then -(f c) else f x
  else f

/-- The repair pass over codepoints `0, …, n-1` (the source runs it with
`n = MAX_UNICODE`), installing missing return deltas. -/
def repair_other_case (oc : Nat → Int) (n : Nat) : Nat → Int :=
  (List.range n).foldl repair_step oc

/-- The inner merge of the caseless-set loop, with its `found` flag: for each
`y` of `[c, o, t]` in order, the set is scanned for `y` (`found` is never reset
between members), and `y` is appended only when the flag is still unset. -/
def caseless_merge (s : List Nat) (ys : List Nat) : List Nat :=
  (ys.foldl (fun st y =>
    if st.2 || decide (y ∈ st.1) then (st.1, true)
    else (st.1 ++ [y], false)) (s, false)).1

/-- Does an existing set contain one of the three triggering codepoints? -/
def hits (c o t : Nat) (s : List Nat) : Bool :=
  s.any (fun x => x = c || x = o || x = t)

/-- One iteration of the caseless-set discovery loop at codepoint `c`, writing
`o` for `c + other_case[c]` and `t` for `o + other_case[o]`: when the delta
graph fails to close in two steps, merge `[c, o, t]` into every existing set
that contains one of them, or append a new set when none does. -/
def caseless_step (oc : Nat → Int) (sets : List (List Nat)) (c : Nat) :
    List (List Nat) :=
  if oc (delta_target oc c) ≠ -(oc c) then
    if sets.any (hits c (delta_target oc c) (delta_target oc (delta_target oc c))) then
      sets.map (fun s =>
        if hits c (delta_target oc c) (delta_target oc (delta_target oc c)) s
        then caseless_merge s
          [c, delta_target oc c, delta_target oc (delta_target oc c)]
        else s)
    else
      sets ++ [[c, delta_target oc c, delta_target oc (delta_target oc c)]]
  else sets

/-- The discovery loop `for c in range(n)` (the source uses `n = MAX_UNICODE`)
over the repaired delta array. -/
def caseless_sets_build (oc : Nat → Int) (n : Nat) : List (List Nat) :=
  (List.range n).foldl (caseless_step oc) []

/-- Offsets into the flattened caseless-set table: `offset` starts at 1, every
member of a set is stamped with the set's offset, and each set consumes
`len(s) + 1` slots. -/
def caseless_offsets_build (sets : List (List Nat)) : Nat → Nat :=
  (sets.foldl (fun (st : (Nat → Nat) × Nat) s =>
    (fun x => if x ∈ s then st.2 else st.1 x, st.2 + s.length + 1))
    ((fun _ => 0), 1)).1

/-- The emitted `ucd_caseless_sets` table: a leading NOTACHAR (the empty first
list), then each discovered set sorted ascending and sentinel-terminated. -/
def caseless_table (sets : List (List Nat)) : List Nat :=
  NOTACHAR :: (sets.map (fun s => sort_nat s ++ [NOTACHAR])).flatten

/-- Support-and-closure condition on a delta array: every nonzero delta lives
below `N` and points (non-negatively) below `N`. -/
def DeltaBounded (oc : Nat → Int) (N : Nat) : Prop :=
  ∀ c, oc c ≠ 0 → c < N ∧ 0 ≤ (c : Int) + oc c ∧ delta_target oc c < N

theorem repair_step_bounded {f : Nat → Int} {N : Nat} (hf : DeltaBounded f N)
    (c : Nat) : DeltaBounded (repair_step f c) N := by
  unfold repair_step
  split
  case isFalse => exact hf
  case isTrue h =>
    obtain ⟨hfc, htgt⟩ := h
    obtain ⟨hcN, hcnn, htN⟩ := hf c hfc
    have htgt_int : ((delta_target f c : Nat) : Int) = (c : Int) + f c :=
      Int.toNat_of_nonneg hcnn
    have hdt : ∀ (g : Nat → Int) (y : Nat), delta_target g y = ((y : Int) + g y).toNat :=
      fun _ _ => rfl
    intro x hx
    by_cases hxt : x = delta_target f c
    · subst hxt
      have hval : (fun x => if x = delta_target f c then -(f c) else f x)
          (delta_target f c) = -(f c) := by simp
      refine ⟨htN, ?_, ?_⟩
      · rw [hval, htgt_int]
        omega
      · rw [hdt]
        rw [if_pos rfl, htgt_int]
        have harg : (c : Int) + f c + -(f c) = (c : Int) := by ring
        rw [harg, Int.toNat_ofNat]
        exact hcN
    · have hval : (fun y => if y = delta_target f c then -(f c) else f y) x = f x := by
        simp [hxt]
      rw [hval] at hx
      obtain ⟨h1, h2, h3⟩ := hf x hx
      refine ⟨h1, ?_, ?_⟩
      · rw [hval]
        exact h2
      · rw [hdt]
        rw [if_neg hxt]
        rw [hdt] at h3
        exact h3

theorem repair_foldl_bounded {N : Nat} (l : List Nat) :
    ∀ f : Nat → Int, DeltaBounded f N → DeltaBounded (l.foldl repair_step f) N := by
  induction l with
  | nil => intro f hf; exact hf
  | cons c rest ih =>
    intro f hf
    exact ih _ (repair_step_bounded hf c)

theorem repair_other_case_bounded {oc : Nat → Int} {N : Nat}
    (h : DeltaBounded oc N) (n : Nat) :
    DeltaBounded (repair_other_case oc n) N :=
  repair_foldl_bounded _ oc h

theorem repair_step_inert {f : Nat → Int} {c : Nat} (hfc : f c = 0) :
    repair_step f c = f := by
  unfold repair_step
  rw [if_neg]
  intro hcon
  exact hcon.1 hfc

theorem range_split (N n : Nat) (hNn : N ≤ n) :
    List.range n = List.range N ++ List.range' N (n - N) := by
  have h1 := List.range'_append_1 0 N (n - N)
  have h2 : (n - N) + N = n := by omega
  rw [h2] at h1
  rw [List.range_eq_range', ← h1]
  simp [List.range_eq_range']

theorem repair_localize {oc : Nat → Int} {N : Nat} (h : DeltaBounded oc N)
    {n : Nat} (hNn : N ≤ n) :
    repair_other_case oc n = repair_other_case oc N := by
  unfold repair_other_case
  rw [range_split N n hNn, List.foldl_append]
  have hrest : ∀ (l : List Nat) (f : Nat → Int), DeltaBounded f N →
      (∀ c ∈ l, N ≤ c) → l.foldl repair_step f = f := by
    intro l
    induction l with
    | nil => intro f _ _; rfl
    | cons c rest ih =>
      intro f hf hl
      have hfc : f c = 0 := by
        by_contra hcon
        have := (hf c hcon).1
        have := hl c (List.mem_cons_self _ _)
        omega
      simp only [List.foldl_cons, repair_step_inert hfc]
      exact ih f hf (fun c' hc' => hl c' (List.mem_cons_of_mem _ hc'))
  apply hrest
  · exact repair_foldl_bounded _ oc h
  · intro c hc
    have := List.mem_range'.mp hc
    omega

theorem caseless_step_inert {oc : Nat → Int} {c : Nat} (hzero : oc c = 0)
    (sets : List (List Nat)) : caseless_step oc sets c = sets := by
  have ho : delta_target oc c = c := by
    unfold delta_target
    rw [hzero]
    simp
  unfold caseless_step
  simp only [ho, hzero]
  simp

theorem caseless_localize {oc : Nat → Int} {N : Nat} (h : DeltaBounded oc N)
    {n : Nat} (hNn : N ≤ n) :
    caseless_sets_build oc n = caseless_sets_build oc N := by
  unfold caseless_sets_build
  rw [range_split N n hNn, List.foldl_append]
  have hrest : ∀ (l : List Nat) (sets : List (List Nat)),
      (∀ c ∈ l, N ≤ c) → l.foldl (caseless_step oc) sets = sets := by
    intro l
    induction l with
    | nil => intro sets _; rfl
    | cons c rest ih =>
      intro sets hl
      have hfc : oc c = 0 := by
        by_contra hcon
        have := (h c hcon).1
        have := hl c (List.mem_cons_self _ _)
        omega
      simp only [List.foldl_cons, caseless_step_inert hfc]
      exact ih sets (fun c' hc' => hl c' (List.mem_cons_of_mem _ hc'))
  apply hrest
  intro c hc
  have := List.mem_range'.mp hc
  omega

/-- The delta array of the C3 counterexample: 1 → 2, 2 → 3, 3 → 7 (and the
repair pass installs 7 → 3). -/
def oc_c3 : Nat → Int :=
  fun c => if c = 1 then 1 else if c = 2 then 1 else if c = 3 then 4 else 0

theorem oc_c3_bounded : DeltaBounded oc_c3 8 := by
  intro c hc
  unfold oc_c3 at hc
  split_ifs at hc with h1 h2 h3
  · subst h1; exact ⟨by decide, by decide, by decide⟩
  · subst h2; exact ⟨by decide, by decide, by decide⟩
  · subst h3; exact ⟨by decide, by decide, by decide⟩
  · exact absurd rfl hc

/-- The repaired delta array and the discovered classes of the C3
counterexample, exactly as the source pipeline computes them. -/
def oc_c3_repaired : Nat → Int := repair_other_case oc_c3 MAX_UNICODE

def c3_sets : List (List Nat) := caseless_sets_build oc_c3_repaired MAX_UNICODE

theorem oc_c3_repaired_small : oc_c3_repaired = repair_other_case oc_c3 8 :=
  repair_localize oc_c3_bounded (by decide)

/-- C3 (counterexample): at codepoint 2 the three-way trigger yields the
triple (2, 3, 7); 2 and 3 already lie in the previously discovered class
[1, 2, 3], yet the not-yet-present member 7 is never added to it (the `found`
flag of the merge loop is sticky), so the final classes are just [[1, 2, 3]]
and 7 belongs to no class. -/
theorem C3_caseless_merge_counterexample :
    oc_c3_repaired 2 ≠ 0 ∧
    delta_target oc_c3_repaired 2 = 3 ∧
    oc_c3_repaired 3 ≠ -(oc_c3_repaired 2) ∧
    delta_target oc_c3_repaired 3 = 7 ∧
    caseless_sets_build oc_c3_repaired 2 = [[1, 2, 3]] ∧
    2 ∈ [1, 2, 3] ∧
    c3_sets = [[1, 2, 3]] ∧
    (∀ s ∈ c3_sets, 7 ∉ s) := by
  have hsets : c3_sets = caseless_sets_build (repair_other_case oc_c3 8) 8 := by
    unfold c3_sets
    rw [oc_c3_repaired_small]
    exact caseless_localize (repair_other_case_bounded oc_c3_bounded 8) (by decide)
  rw [hsets]
  rw [oc_c3_repaired_small]
  refine ⟨by decide, by decide, by decide, by decide, by decide, by decide,
    by decide, by decide⟩

/-- Reference description of the merge as the amended claim states it: the
members of the triple are appended in order only until one of them is found
already present; from then on nothing more is appended. -/
def merge_until_found (s : List Nat) : List Nat → List Nat
  | [] => s
  | y :: rest => if y ∈ s then s else merge_until_found (s ++ [y]) rest

theorem caseless_merge_stuck (ys : List Nat) :
    ∀ s : List Nat, (ys.foldl (fun st y =>
      if st.2 || decide (y ∈ st.1) then (st.1, true)
      else (st.1 ++ [y], false)) (s, true)) = (s, true) := by
  induction ys with
  | nil => intro s; rfl
  | cons y rest ih =>
    intro s
    simp only [List.foldl_cons]
    rw [if_pos (by simp)]
    exact ih s

theorem caseless_merge_eq_spec (ys : List Nat) :
    ∀ s, caseless_merge s ys = merge_until_found s ys := by
  induction ys with
  | nil => intro s; rfl
  | cons y rest ih =>
    intro s
    unfold caseless_merge
    simp only [List.foldl_cons]
    by_cases hy : y ∈ s
    · rw [if_pos (by simp [hy])]
      rw [caseless_merge_stuck rest s]
      unfold merge_until_found
      rw [if_pos hy]
    · rw [if_neg (by simp [hy])]
      have hdef : (rest.foldl (fun st y =>
          if st.2 || decide (y ∈ st.1) then (st.1, true)
          else (st.1 ++ [y], false)) (s ++ [y], false)).1 =
          caseless_merge (s ++ [y]) rest := rfl
      rw [hdef, ih (s ++ [y])]
      have hrhs : merge_until_found s (y :: rest) =
          if y ∈ s then s else merge_until_found (s ++ [y]) rest := rfl
      rw [hrhs, if_neg hy]

/-- The delta array of the A, B, C scenario with A = 1, B = 2, C = 3:
A's delta points at B, B's delta points onward at C (so it does not point
back at A), and C's own delta points back at A. -/
def oc_abc : Nat → Int :=
  fun c => if c = 1 then 1 else if c = 2 then 1 else if c = 3 then -2 else 0

theorem oc_abc_bounded : DeltaBounded oc_abc 8 := by
  intro c hc
  unfold oc_abc at hc
  split_ifs at hc with h1 h2 h3
  · subst h1; exact ⟨by decide, by decide, by decide⟩
  · subst h2; exact ⟨by decide, by decide, by decide⟩
  · subst h3; exact ⟨by decide, by decide, by decide⟩
  · exact absurd rfl hc

def oc_abc_repaired : Nat → Int := repair_other_case oc_abc MAX_UNICODE

def abc_sets : List (List Nat) := caseless_sets_build oc_abc_repaired MAX_UNICODE

theorem oc_abc_repaired_small : oc_abc_repaired = repair_other_case oc_abc 8 :=
  repair_localize oc_abc_bounded (by decide)

/-- C3 (amended): the merge appends the members of the triple in order only
until one is found already present (instead of adding every absent member);
and in the A, B, C scenario — A's delta points at B, B's recorded delta does
not point back at A, and C's later trigger (C, A, B) overlaps {A, B} — the
final class is exactly {A, B, C} and all three codepoints receive the same
caseless-table offset 1. -/
theorem C3_caseless_merge_amended :
    (∀ s ys, caseless_merge s ys = merge_until_found s ys) ∧
    oc_abc_repaired 1 = 1 ∧
    delta_target oc_abc_repaired 1 = 2 ∧
    delta_target oc_abc_repaired 2 ≠ 1 ∧
    oc_abc_repaired 3 ≠ 0 ∧
    delta_target oc_abc_repaired 3 = 1 ∧
    oc_abc_repaired 1 ≠ -(oc_abc_repaired 3) ∧
    delta_target oc_abc_repaired (delta_target oc_abc_repaired 3) = 2 ∧
    abc_sets = [[1, 2, 3]] ∧
    caseless_offsets_build abc_sets 1 = 1 ∧
    caseless_offsets_build abc_sets 2 = 1 ∧
    caseless_offsets_build abc_sets 3 = 1 := by
  have hsets : abc_sets = caseless_sets_build (repair_other_case oc_abc 8) 8 := by
    unfold abc_sets
    rw [oc_abc_repaired_small]
    exact caseless_localize (repair_other_case_bounded oc_abc_bounded 8) (by decide)
  rw [hsets, oc_abc_repaired_small]
  exact ⟨fun s ys => caseless_merge_eq_spec ys s, by decide, by decide, by decide,
    by decide, by decide, by decide, by decide, by decide, by decide, by decide,
    by decide⟩

/-- The delta array of the C4 counterexample: two classes [1, 2, 3] (from the
trigger at 1) and [4, 5, 7] (from the trigger at 4) are discovered first, and
the later trigger (8, 3, 5) overlaps both, adding 8 to both classes and 3 to
the second one. -/
def oc_c4 : Nat → Int :=
  fun c => if c = 1 then 1 else if c = 2 then 1 else if c = 3 then 2
    else if c = 4 then 1 else if c = 5 then 2 else if c = 8 then -5 else 0

theorem oc_c4_bounded : DeltaBounded oc_c4 9 := by
  intro c hc
  unfold oc_c4 at hc
  split_ifs at hc with h1 h2 h3 h4 h5 h6
  · subst h1; exact ⟨by decide, by decide, by decide⟩
  · subst h2; exact ⟨by decide, by decide, by decide⟩
  · subst h3; exact ⟨by decide, by decide, by decide⟩
  · subst h4; exact ⟨by decide, by decide, by decide⟩
  · subst h5; exact ⟨by decide, by decide, by decide⟩
  · subst h6; exact ⟨by decide, by decide, by decide⟩
  · exact absurd rfl hc

def oc_c4_repaired : Nat → Int := repair_other_case oc_c4 MAX_UNICODE

def c4_sets : List (List Nat) := caseless_sets_build oc_c4_repaired MAX_UNICODE

theorem oc_c4_repaired_small : oc_c4_repaired = repair_other_case oc_c4 9 :=
  repair_localize oc_c4_bounded (by decide)

/-- Mutual reachability within two hops of the case-delta graph, as the
claim words it. -/
def within_two_hops (oc : Nat → Int) (a b : Nat) : Bool :=
  b = a || delta_target oc a = b || delta_target oc (delta_target oc a) = b

/-- C4 (counterexample): the produced classes are not pairwise disjoint — the
codepoints 8 and 3 end up in both final classes — and class members need not
be mutually reachable within two hops (4 and 3 share a class, but 3 is not
within two hops of 4). -/
theorem C4_equivalence_sets_counterexample :
    c4_sets = [[1, 2, 3, 8], [4, 5, 7, 8, 3]] ∧
    ([1, 2, 3, 8] : List Nat) ≠ [4, 5, 7, 8, 3] ∧
    8 ∈ ([1, 2, 3, 8] : List Nat) ∧
    8 ∈ ([4, 5, 7, 8, 3] : List Nat) ∧
    3 ∈ ([1, 2, 3, 8] : List Nat) ∧
    3 ∈ ([4, 5, 7, 8, 3] : List Nat) ∧
    4 ∈ ([4, 5, 7, 8, 3] : List Nat) ∧
    within_two_hops oc_c4_repaired 4 3 = false := by
  have hsets : c4_sets = caseless_sets_build (repair_other_case oc_c4 9) 9 := by
    unfold c4_sets
    rw [oc_c4_repaired_small]
    exact caseless_localize (repair_other_case_bounded oc_c4_bounded 9) (by decide)
  rw [hsets, oc_c4_repaired_small]
  exact ⟨by decide, by decide, by decide, by decide, by decide, by decide,
    by decide, by decide⟩

/-- Offset of class `k`'s run in the caseless-set table: one slot for the
leading sentinel plus `len + 1` slots for every earlier class, matching the
`offset = 1; …; offset += len(s) + 1` loop. -/
def class_offset (sets : List (List Nat)) (k : Nat) : Nat :=
  1 + ((sets.take k).map (fun s => s.length + 1)).sum

theorem flatten_drop_sum (L : List (List Nat)) :
    ∀ k, (L.flatten).drop (((L.take k).map List.length).sum) = (L.drop k).flatten := by
  induction L with
  | nil => intro k; cases k <;> simp
  | cons hd tl ih =>
    intro k
    cases k with
    | zero => simp
    | succ k =>
      simp only [List.take_succ_cons, List.map_cons, List.sum_cons,
        List.flatten_cons, List.drop_succ_cons]
      rw [List.drop_append]
      exact ih k

theorem flatten_segment (L : List (List Nat)) (k : Nat) (hk : k < L.length) :
    ((L.flatten).drop (((L.take k).map List.length).sum)).take (L.getD k []).length
      = L.getD k [] := by
  rw [flatten_drop_sum L k]
  have hdk : L.drop k = L.getD k [] :: L.drop (k + 1) := by
    rw [List.drop_eq_getElem_cons hk]
    congr 1
    rw [List.getD_eq_getElem?_getD, List.getElem?_eq_getElem hk]
    rfl
  rw [hdk, List.flatten_cons]
  exact List.take_left _ _

theorem run_length (s : List Nat) :
    (sort_nat s ++ [NOTACHAR]).length = s.length + 1 := by
  simp [List.length_append, (sort_nat_sorted_perm s).2.length_eq]

theorem caseless_table_run (sets : List (List Nat)) (k : Nat) (hk : k < sets.length) :
    ((caseless_table sets).drop (class_offset sets k)).take
        ((sets.getD k []).length + 1) =
      sort_nat (sets.getD k []) ++ [NOTACHAR] := by
  unfold caseless_table class_offset
  set L := sets.map (fun s => sort_nat s ++ [NOTACHAR]) with hL
  have hkL : k < L.length := by rw [hL, List.length_map]; exact hk
  have hLtake : L.take k = (sets.take k).map (fun s => sort_nat s ++ [NOTACHAR]) := by
    rw [hL, List.map_take]
  have hsum : ((sets.take k).map (fun s => s.length + 1)).sum =
      ((L.take k).map List.length).sum := by
    rw [hLtake, List.map_map]
    congr 1
    apply List.map_congr_left
    intro s _
    exact (run_length s).symm
  have hgetk : sets.getD k [] = sets[k] := by
    rw [List.getD_eq_getElem?_getD, List.getElem?_eq_getElem hk]
    rfl
  have hrun_at : L.getD k [] = sort_nat (sets.getD k []) ++ [NOTACHAR] := by
    rw [hL, List.getD_eq_getElem?_getD, List.getElem?_map,
      List.getElem?_eq_getElem hk, hgetk]
    rfl
  rw [hsum]
  have h1S : 1 + ((L.take k).map List.length).sum =
      ((L.take k).map List.length).sum + 1 := by omega
  rw [h1S, List.drop_succ_cons]
  have hlen : (sets.getD k []).length + 1 = (L.getD k []).length := by
    rw [hrun_at, run_length]
  rw [hlen, flatten_segment L k hkL, hrun_at]

theorem caseless_offsets_foldl_snd (sets : List (List Nat)) :
    ∀ st : (Nat → Nat) × Nat,
    (sets.foldl (fun (st : (Nat → Nat) × Nat) s =>
      (fun x => if x ∈ s then st.2 else st.1 x, st.2 + s.length + 1)) st).2 =
    st.2 + (sets.map (fun s => s.length + 1)).sum := by
  induction sets with
  | nil => intro st; simp
  | cons s rest ih =>
    intro st
    simp only [List.foldl_cons, List.map_cons, List.sum_cons]
    rw [ih]
    dsimp only
    omega

theorem caseless_offsets_last (sets : List (List Nat)) (k x : Nat) :
    k < sets.length → x ∈ sets.getD k [] →
    (∀ j, k < j → j < sets.length → x ∉ sets.getD j []) →
    caseless_offsets_build sets x = class_offset sets k := by
  induction sets using List.reverseRecOn with
  | nil => intro hk; cases hk
  | append_singleton sets s ih =>
    intro hk hx hlater
    unfold caseless_offsets_build
    rw [List.foldl_append]
    simp only [List.foldl_cons, List.foldl_nil]
    rcases Nat.lt_succ_iff_lt_or_eq.mp (by simpa using hk) with hk' | hk'
    · have hxs : x ∉ s := by
        have hl := hlater sets.length hk' (by simp)
        rw [getD_append_self sets s []] at hl
        exact hl
      rw [if_neg hxs]
      have hco : class_offset (sets ++ [s]) k = class_offset sets k := by
        unfold class_offset
        rw [List.take_append_of_le_length (le_of_lt hk')]
      rw [hco]
      apply ih hk'
      · rw [getD_append_left sets [s] [] hk'] at hx
        exact hx
      · intro j hkj hj
        have hl := hlater j hkj (by simp only [List.length_append]; simp; omega)
        rw [getD_append_left sets [s] [] hj] at hl
        exact hl
    · subst hk'
      have hxs : x ∈ s := by
        rw [getD_append_self sets s []] at hx
        exact hx
      rw [if_pos hxs]
      rw [caseless_offsets_foldl_snd]
      unfold class_offset
      rw [List.take_left]

/-- C4 (amended): the discovered classes need not be pairwise disjoint, and a
class's members need not all be mutually reachable within two hops (the merge
adds the triple to every overlapping class, stopping at the first member found
present). What does hold of the emission: for each class, the caseless-set
table's run at the class's offset is exactly the class's members in ascending
order followed by the NOTACHAR sentinel, and a codepoint is stamped with the
offset of the last class containing it. -/
theorem C4_equivalence_sets_amended :
    (∀ s : List Nat, List.Sorted (· ≤ ·) (sort_nat s) ∧ List.Perm (sort_nat s) s) ∧
    (∀ (sets : List (List Nat)) (k : Nat), k < sets.length →
      ((caseless_table sets).drop (class_offset sets k)).take
          ((sets.getD k []).length + 1) =
        sort_nat (sets.getD k []) ++ [NOTACHAR]) ∧
    (∀ (sets : List (List Nat)) (k x : Nat), k < sets.length →
      x ∈ sets.getD k [] →
      (∀ j, k < j → j < sets.length → x ∉ sets.getD j []) →
      caseless_offsets_build sets x = class_offset sets k) :=
  ⟨sort_nat_sorted_perm, caseless_table_run, caseless_offsets_last⟩

end GenerateUcd
